import Mathlib

/-!
# Verification of the readcon-core frame parser/writer

A shallow embedding of the `.con` streaming frame parser, writer, iterator
(`next` / fast-skip `forward`) and the C boundary adapter of readcon-core,
together with proofs of the specification's testable properties.

Modelling conventions:
* A file's contents are modelled at the line level (`List String`), matching
  the Rust code which works over `str::lines()`.
* Rust `f64` values are idealized as exact rationals (`ℚ`): decimal literal
  tokens parse to their exact rational value, and the writer's fixed
  6-fractional-digit formatting is exact rounding on `ℚ`.  Infinity/NaN
  literals are outside the rational model.  `usize`/`u64` are `Nat` with an
  explicit `2^64` bound where the Rust type can overflow.
* Parsers are prefix-consuming: on success they return the value and the
  unconsumed tail of lines, modelling the destructively advanced iterator.
* A Rust panic (out-of-bounds index) is modelled as `Option.none`.
-/

set_option allowUnsafeReducibility true

attribute [semireducible] Rat.mul Rat.add Rat.inv Rat.div Rat.sub Rat.neg

namespace ReadCon

/-- The error type of the parser (`error.rs::ParseError`). -/
inductive ParseError where
  | IncompleteHeader : ParseError
  | IncompleteFrame : ParseError
  | InvalidVectorLength : Nat → Nat → ParseError
  | InvalidNumberFormat : String → ParseError
deriving DecidableEq, Repr

instance {ε α : Type} [DecidableEq ε] [DecidableEq α] : DecidableEq (Except ε α) := fun x y =>
  match x, y with
  | .ok a, .ok b =>
    if h : a = b then isTrue (by rw [h]) else isFalse (by intro hxy; cases hxy; exact h rfl)
  | .error a, .error b =>
    if h : a = b then isTrue (by rw [h]) else isFalse (by intro hxy; cases hxy; exact h rfl)
  | .ok _, .error _ => isFalse (by intro h; cases h)
  | .error _, .ok _ => isFalse (by intro h; cases h)

/-- 2^64, the number of values of Rust's 64-bit `usize`/`u64`. -/
def U64SIZE : Nat := 18446744073709551616

/-- One decimal digit as a character. -/
def digitChar (d : Nat) : Char :=
  if d = 0 then '0' else if d = 1 then '1' else if d = 2 then '2'
  else if d = 3 then '3' else if d = 4 then '4' else if d = 5 then '5'
  else if d = 6 then '6' else if d = 7 then '7' else if d = 8 then '8'
  else if d = 9 then '9' else '*'

/-- The numeric value of a decimal digit character. -/
def charVal (c : Char) : Nat := c.toNat - 48

/-- The value of a big-endian list of decimal digit characters. -/
def digitsToNat (l : List Char) : Nat :=
  l.foldl (fun a c => a * 10 + charVal c) 0

/-- Big-endian decimal digits of `n` (empty for 0), fuel-based so that the
kernel can evaluate it. -/
def natDigsAux : Nat → Nat → List Char
  | 0, _ => []
  | fuel + 1, n => if n = 0 then [] else natDigsAux fuel (n / 10) ++ [digitChar (n % 10)]

/-- Decimal representation of a natural number, as Rust's `Display` for
`usize`/`u64` renders it. -/
def natDigs (n : Nat) : List Char :=
  if n = 0 then ['0'] else natDigsAux n n

/-- Decimal representation of a natural number as a string. -/
def natRepr (n : Nat) : String := ⟨natDigs n⟩

/-- Splitter state machine for `str::split_whitespace`: accumulate the current
token (reversed) and emit it at whitespace boundaries, dropping empty tokens. -/
def splitWsAux : List Char → List Char → List (List Char)
  | [], acc => if acc = [] then [] else [acc.reverse]
  | c :: cs, acc =>
    if c.isWhitespace then
      if acc = [] then splitWsAux cs [] else acc.reverse :: splitWsAux cs []
    else splitWsAux cs (c :: acc)

/-- Rust `str::split_whitespace`: whitespace-separated tokens, empties dropped. -/
def splitWs (s : String) : List String :=
  (splitWsAux s.toList []).map fun l => ⟨l⟩

/-- `usize::from_str`: an optional leading `+`, then one or more decimal
digits; the value must fit in 64 bits.  The error payloads are the display
strings of `std::num::ParseIntError`. -/
def parseNatTok (s : String) : Except ParseError Nat :=
  match s.toList with
  | [] => .error (.InvalidNumberFormat "cannot parse integer from empty string")
  | c :: r =>
    let cs := if c = '+' then r else c :: r
    if cs ≠ [] && cs.all (fun c => c.isDigit) then
      let v := digitsToNat cs
      if v < U64SIZE then .ok v
      else .error (.InvalidNumberFormat "number too large to fit in target type")
    else .error (.InvalidNumberFormat "invalid digit found in string")

/-- Split a character list at the first character satisfying `p`; the second
component is `none` when no such character occurs. -/
def splitAtChar (p : Char → Bool) : List Char → List Char × Option (List Char)
  | [] => ([], none)
  | c :: cs =>
    if p c then ([], some cs)
    else
      let r := splitAtChar p cs
      (c :: r.1, r.2)

/-- The value of a decimal mantissa `ip.fp` together with an exponent. -/
def mantissaVal (ip fp : List Char) (ex : ℤ) : ℚ :=
  (digitsToNat (ip ++ fp) : ℚ) / 10 ^ fp.length * (10 : ℚ) ^ ex

/-- The body of the `f64` literal grammar after the optional leading sign:
mantissa digits with an optional point (at least one digit overall), then an
optional `e`/`E` exponent with at least one digit. -/
def floatBody (sgn : ℚ) (cs : List Char) : Option ℚ :=
  let me := splitAtChar (fun c => c = 'e' || c = 'E') cs
  let ipfp := splitAtChar (fun c => c = '.') me.1
  let ip := ipfp.1
  let fp := (ipfp.2).getD []
  if ip.all (fun c => c.isDigit) && fp.all (fun c => c.isDigit) && ip ++ fp ≠ [] then
    match me.2 with
    | none => some (sgn * mantissaVal ip fp 0)
    | some es =>
      let es2 := match es with
        | c :: r =>
          if c = '-' then ((-1 : ℤ), r) else if c = '+' then ((1 : ℤ), r) else ((1 : ℤ), c :: r)
        | [] => ((1 : ℤ), [])
      if es2.2 ≠ [] && (es2.2).all (fun c => c.isDigit) then
        some (sgn * mantissaVal ip fp (es2.1 * digitsToNat es2.2))
      else none
  else none

/-- The (finite) literal grammar of `f64::from_str`, idealized over `ℚ`:
optional sign, then the mantissa/exponent body.  Returns `none` when the
token is not such a literal. -/
def floatVal? (cs0 : List Char) : Option ℚ :=
  match cs0 with
  | [] => floatBody 1 []
  | c :: r =>
    if c = '-' then floatBody (-1) r
    else if c = '+' then floatBody 1 r
    else floatBody 1 (c :: r)

/-- `f64::from_str` on finite decimal literals; the error payload is the
display string of `std::num::ParseFloatError` (`error.rs` stores
`e.to_string()`, not the offending token). -/
def parseFloatTok (s : String) : Except ParseError ℚ :=
  match floatVal? s.toList with
  | some q => .ok q
  | none => .error (.InvalidNumberFormat "invalid float literal")

/-- `parser.rs::parse_line_of_n`, generic over the token parser: parse every
whitespace-separated token, then check the count. -/
def parse_line_of_n {α : Type} (tok : String → Except ParseError α) (line : String)
    (n : Nat) : Except ParseError (List α) := do
  let values ← (splitWs line).mapM tok
  if values.length = n then pure values
  else .error (.InvalidVectorLength n values.length)

/-- Both-ends whitespace trim on a character list (Rust `str::trim`). -/
def trimList (l : List Char) : List Char :=
  ((l.dropWhile (fun c => c.isWhitespace)).reverse.dropWhile (fun c => c.isWhitespace)).reverse

/-- Rust `str::trim`. -/
def strTrim (s : String) : String := ⟨trimList s.toList⟩

/-- `types.rs::FrameHeader`.  The fixed-size arrays `[String; 2]` and
`[f64; 3]` are modelled as pairs and triples. -/
structure FrameHeader where
  prebox_header : String × String
  boxl : ℚ × ℚ × ℚ
  angles : ℚ × ℚ × ℚ
  postbox_header : String × String
  natm_types : Nat
  natms_per_type : List Nat
  masses_per_type : List ℚ
deriving DecidableEq, Repr

/-- `types.rs::AtomDatum`.  `atom_id` is a `u64` value (`< 2^64` whenever it
comes from the parser). -/
structure AtomDatum where
  symbol : String
  x : ℚ
  y : ℚ
  z : ℚ
  is_fixed : Bool
  atom_id : Nat
deriving DecidableEq, Repr

/-- `types.rs::ConFrame`. -/
structure ConFrame where
  header : FrameHeader
  atom_data : List AtomDatum
deriving DecidableEq, Repr

/-- Take the next line, failing with `IncompleteHeader` when exhausted
(`lines.next().ok_or(ParseError::IncompleteHeader)`). -/
def popH (ls : List String) : Except ParseError (String × List String) :=
  match ls with
  | [] => .error .IncompleteHeader
  | x :: xs => .ok (x, xs)

/-- Take the next line, failing with `IncompleteFrame` when exhausted
(`lines.next().ok_or(ParseError::IncompleteFrame)`). -/
def popF (ls : List String) : Except ParseError (String × List String) :=
  match ls with
  | [] => .error .IncompleteFrame
  | x :: xs => .ok (x, xs)

/-- A length-3 list as a triple (`boxl_vec.try_into().unwrap()`; total here
because `parse_line_of_n _ 3` always returns length-3 lists). -/
def tripleOf (l : List ℚ) : ℚ × ℚ × ℚ :=
  (l.headD 0, (l.drop 1).headD 0, (l.drop 2).headD 0)

/-- `parser.rs::parse_frame_header`: consume the 9 header lines one by one,
parsing the numeric ones as it goes. -/
def parse_frame_header (ls0 : List String) : Except ParseError (FrameHeader × List String) := do
  let p1 ← popH ls0
  let prebox1 := p1.1
  let p2 ← popH p1.2
  let prebox2 := p2.1
  let p3 ← popH p2.2
  let boxl_vec ← parse_line_of_n parseFloatTok p3.1 3
  let p4 ← popH p3.2
  let angles_vec ← parse_line_of_n parseFloatTok p4.1 3
  let p5 ← popH p4.2
  let postbox1 := p5.1
  let p6 ← popH p5.2
  let postbox2 := p6.1
  let p7 ← popH p6.2
  let ntv ← parse_line_of_n parseNatTok p7.1 1
  let natm_types := ntv.headD 0
  let p8 ← popH p7.2
  let natms_per_type ← parse_line_of_n parseNatTok p8.1 natm_types
  let p9 ← popH p8.2
  let masses_per_type ← parse_line_of_n parseFloatTok p9.1 natm_types
  pure ({ prebox_header := (prebox1, prebox2), boxl := tripleOf boxl_vec,
          angles := tripleOf angles_vec, postbox_header := (postbox1, postbox2),
          natm_types := natm_types, natms_per_type := natms_per_type,
          masses_per_type := masses_per_type }, p9.2)

/-- Rust's `as u64` cast from `f64`: truncation toward zero, saturating at
`0` and `u64::MAX`. -/
def f64_as_u64 (q : ℚ) : Nat :=
  if q < 0 then 0 else min (Int.toNat ⌊q⌋) (U64SIZE - 1)

/-- One atom record from the 5 parsed reals of a coordinate line
(`parser.rs::parse_single_frame`, loop body). -/
def mkAtom (sym : String) (vals : List ℚ) : AtomDatum :=
  { symbol := sym, x := vals.headD 0, y := (vals.drop 1).headD 0,
    z := (vals.drop 2).headD 0, is_fixed := decide ((vals.drop 3).headD 0 ≠ 0),
    atom_id := f64_as_u64 ((vals.drop 4).headD 0) }

/-- The inner loop of `parse_single_frame`: `n` coordinate lines of one type
block, each parsed as 5 reals. -/
def parse_coords (sym : String) : Nat → List String → Except ParseError (List AtomDatum × List String)
  | 0, ls => .ok ([], ls)
  | n + 1, ls => do
    let p ← popF ls
    let vals ← parse_line_of_n parseFloatTok p.1 5
    let r ← parse_coords sym n p.2
    pure (mkAtom sym vals :: r.1, r.2)

/-- The outer loop of `parse_single_frame`: for each per-type count, a symbol
line (trimmed), a discarded block-marker line, then the coordinate lines. -/
def parse_blocks : List Nat → List String → Except ParseError (List AtomDatum × List String)
  | [], ls => .ok ([], ls)
  | n :: ns, ls => do
    let ps ← popF ls
    let sym := strTrim ps.1
    let pm ← popF ps.2
    let r ← parse_coords sym n pm.2
    let rr ← parse_blocks ns r.2
    pure (r.1 ++ rr.1, rr.2)

/-- `parser.rs::parse_single_frame`: header, then the per-type atom blocks. -/
def parse_single_frame (ls : List String) : Except ParseError (ConFrame × List String) := do
  let ph ← parse_frame_header ls
  let pa ← parse_blocks ph.1.natms_per_type ph.2
  pure ({ header := ph.1, atom_data := pa.1 }, pa.2)

/-- Consume `n` lines, failing with `e` when the stream runs out first. -/
def dropLines (e : ParseError) : Nat → List String → Except ParseError (List String)
  | 0, ls => .ok ls
  | n + 1, ls =>
    match ls with
    | [] => .error e
    | _ :: xs => dropLines e n xs

/-- `iterators.rs::ConFrameIterator::next`.  The iterator's cursor is the line
list; on success the new cursor is returned alongside the frame.  (On a parse
error the Rust cursor stops wherever parsing stopped; the post-error cursor is
not modelled, only the yielded item.) -/
def nextStep (ls : List String) : Option (Except ParseError (ConFrame × List String)) :=
  match ls with
  | [] => none
  | _ => some (parse_single_frame ls)

/-- The item yielded by `next()`, without the cursor. -/
def nextVal (ls : List String) : Option (Except ParseError ConFrame) :=
  (nextStep ls).map (fun r => r.map (fun p => p.1))

/-- `iterators.rs::ConFrameIterator::forward`: the header-only fast skip.  The
first 6 header lines are consumed without parsing; only the type-count and
per-type-count lines are parsed; the mass line is consumed unparsed; then
`total_atoms + natm_types * 2` lines are discarded.  On success the returned
value carries the advanced cursor (Rust returns `Some(Ok(()))` and mutates the
iterator in place). -/
def forward (ls : List String) : Option (Except ParseError (List String)) :=
  match ls with
  | [] => none
  | _ =>
    some (do
      let ls1 ← dropLines .IncompleteHeader 6 ls
      let p7 ← popH ls1
      let ntv ← parse_line_of_n parseNatTok p7.1 1
      let natm_types := ntv.headD 0
      let p8 ← popH p7.2
      let natms_per_type ← parse_line_of_n parseNatTok p8.1 natm_types
      let ls2 ← dropLines .IncompleteHeader 1 p8.2
      let total_atoms := natms_per_type.sum
      let non_atom_lines := natm_types * 2
      let lines_to_skip := total_atoms + non_atom_lines
      dropLines .IncompleteFrame lines_to_skip ls2)

/-- The item yielded by `forward()`, without the cursor. -/
def forwardVal (ls : List String) : Option (Except ParseError Unit) :=
  (forward ls).map (fun r => r.map (fun _ => ()))

/-- The decoder yields exactly the frames `fs` from the lines `ls`, ending at
end of stream: repeated `next()` returns `Ok` for each frame and then `None`.
This is "a sequence of frames produced by the decoder from well-formed
input". -/
inductive DecodesTo : List String → List ConFrame → Prop where
  | nil : DecodesTo [] []
  | cons {ls : List String} {f : ConFrame} {rest : List String} {fs : List ConFrame} :
      parse_single_frame ls = .ok (f, rest) → DecodesTo rest fs → DecodesTo ls (f :: fs)

/-- Drive one iterator with an arbitrary interleaving of `forward()` (`true`)
and `next()` (`false`) calls on the shared cursor, collecting each call's
yield (`none` for a skip) — `none` overall if any call fails or hits the end
of the stream. -/
def runMixed : List Bool → List String → Option (List (Option ConFrame) × List String)
  | [], ls => some ([], ls)
  | true :: cs, ls =>
    match forward ls with
    | some (.ok rest) => (runMixed cs rest).map (fun r => (none :: r.1, r.2))
    | _ => none
  | false :: cs, ls =>
    match nextStep ls with
    | some (.ok (f, rest)) => (runMixed cs rest).map (fun r => (some f :: r.1, r.2))
    | _ => none

/-- Fixed 6-fractional-digit decimal rendering of a rational, as Rust's
`{:.6}` float formatting (`writer.rs::FLOAT_PRECISION`): sign of the value,
the integer part, a point, and exactly 6 fraction digits of the rounded
magnitude. -/
def fmt6Chars (q : ℚ) : List Char :=
  let a : Nat := (round (|q| * 10 ^ 6)).toNat
  let frac := natDigs (a % 10 ^ 6)
  (if q < 0 then ['-'] else []) ++ natDigs (a / 10 ^ 6) ++
    '.' :: (List.replicate (6 - frac.length) '0' ++ frac)

/-- `{:.6}` formatting as a string. -/
def fmt6 (q : ℚ) : String := ⟨fmt6Chars q⟩

/-- `join(" ")` at the character level. -/
def joinSp (ts : List (List Char)) : List Char :=
  match ts with
  | [] => []
  | [t] => t
  | t :: ts => t ++ ' ' :: joinSp ts

/-- One serialized coordinate line: `x y z flag id` with the coordinates at 6
fractional digits and the fixed flag as `1`/`0`
(`writer.rs::ConFrameWriter::write_frame`). -/
def atomLine (a : AtomDatum) : String :=
  ⟨joinSp [fmt6Chars a.x, fmt6Chars a.y, fmt6Chars a.z,
           (if a.is_fixed then ['1'] else ['0']), natDigs a.atom_id]⟩

/-- The 9 serialized header lines (`write_frame`, header section). -/
def headerLines (h : FrameHeader) : List String :=
  [h.prebox_header.1,
   h.prebox_header.2,
   ⟨joinSp [fmt6Chars h.boxl.1, fmt6Chars h.boxl.2.1, fmt6Chars h.boxl.2.2]⟩,
   ⟨joinSp [fmt6Chars h.angles.1, fmt6Chars h.angles.2.1, fmt6Chars h.angles.2.2]⟩,
   h.postbox_header.1,
   h.postbox_header.2,
   natRepr h.natm_types,
   ⟨joinSp (h.natms_per_type.map natDigs)⟩,
   ⟨joinSp (h.masses_per_type.map fmt6Chars)⟩]

/-- The serialized atom blocks (`write_frame`, atom-data section): per type, the
symbol of the atom at the running offset, a `Coordinates of Component i` line,
then that type's coordinate lines.  `none` models the out-of-bounds index
(a Rust panic) when the running offset reaches past the end of `atom_data`. -/
def writeBlocks : List AtomDatum → Nat → List Nat → Option (List String)
  | atoms, type_idx, n :: ns =>
    match atoms with
    | [] => none
    | a0 :: _ =>
      if n ≤ atoms.length then
        (writeBlocks (atoms.drop n) (type_idx + 1) ns).map
          (fun rest =>
            a0.symbol :: ("Coordinates of Component " ++ natRepr (type_idx + 1)) ::
              ((atoms.take n).map atomLine ++ rest))
      else none
  | _, _, [] => some []

/-- `writer.rs::ConFrameWriter::write_frame`, as the list of lines written;
`none` models the panic on a frame whose atom list runs out before its
per-type counts do. -/
def write_frame (f : ConFrame) : Option (List String) :=
  (writeBlocks f.atom_data 0 f.header.natms_per_type).map
    (fun blocks => headerLines f.header ++ blocks)

/-- `ConFrameWriter::extend` / `write_con_file`: each frame in sequence, no
separators (multi-frame output is the concatenation of single-frame
outputs). -/
def write_frames : List ConFrame → Option (List String)
  | [] => some []
  | f :: fs => do
    let l ← write_frame f
    let r ← write_frames fs
    pure (l ++ r)

/-- `ffi.rs::HEADER_LINE_MAX_LEN`. -/
def HEADER_LINE_MAX_LEN : Nat := 256

/-- `ffi.rs::MAX_ATOM_TYPES`. -/
def MAX_ATOM_TYPES : Nat := 64

/-- `ffi.rs::CAtom`. -/
structure CAtom where
  atomic_number : Nat
  x : ℚ
  y : ℚ
  z : ℚ
  atom_id : Nat
  mass : ℚ
  is_fixed : Bool
deriving DecidableEq, Repr

/-- `ffi.rs::CFrame`.  The `atoms` pointer/length pair is a list; the fixed
`[_; MAX_ATOM_TYPES]` arrays are lists that are length-64 in every value the
adapter constructs; the fixed 256-byte `c_char` header buffers are the strings
they hold up to the forced null terminator. -/
structure CFrame where
  atoms : List CAtom
  cell : ℚ × ℚ × ℚ
  angles : ℚ × ℚ × ℚ
  prebox_header : String × String
  postbox_header : String × String
  natm_types : Nat
  natms_per_type : List Nat
  masses_per_type : List ℚ
deriving DecidableEq, Repr

/-- `ffi.rs::copy_str_to_c_arr`: copy at most `HEADER_LINE_MAX_LEN - 1`
characters into the fixed buffer and force a null terminator (the stored
string is therefore the truncation). -/
def copy_str_to_c_arr (s : String) : String :=
  ⟨s.toList.take (HEADER_LINE_MAX_LEN - 1)⟩

/-- The masses iterator of `ffi.rs`: for each type, its mass repeated once per
atom of that type (`natms_per_type.iter().zip(masses_per_type).flat_map(repeat_n)`). -/
def massesFlat (h : FrameHeader) : List ℚ :=
  ((h.natms_per_type.zip h.masses_per_type).map (fun p => List.replicate p.1 p.2)).flatten

/-- The `CAtom` vector built by the adapter: atom data zipped with the flat
masses iterator; the symbol is replaced by its atomic number via the lookup
table.  The `symToNum` parameter stands for `helpers::symbol_to_atomic_number`
(the `helpers` module is not under `src/`; the spec treats the lookup tables
as external glue). -/
def cAtomsOf (symToNum : String → Nat) (f : ConFrame) : List CAtom :=
  (f.atom_data.zip (massesFlat f.header)).map fun p =>
    { atomic_number := symToNum p.1.symbol, x := p.1.x, y := p.1.y, z := p.1.z,
      is_fixed := p.1.is_fixed, atom_id := p.1.atom_id, mass := p.2 }

/-- `copy_from_slice` into the first `n` cells of a fixed array: lengths must
match exactly (a mismatch is a Rust panic, modelled as `none`). -/
def copy_into_prefix {α : Type} (arr : List α) (n : Nat) (src : List α) : Option (List α) :=
  if src.length = n ∧ n ≤ arr.length then some (src ++ arr.drop n) else none

/-- `ffi.rs::convert_con_frame_to_c_frame`: fails (null) when the type count
exceeds `MAX_ATOM_TYPES`; otherwise copies the per-type data into the fixed
arrays' prefixes and the header text into the fixed buffers with truncation. -/
def convert_con_frame_to_c_frame (symToNum : String → Nat) (f : ConFrame) : Option CFrame := do
  if MAX_ATOM_TYPES < f.header.natm_types then none
  else
    let n := f.header.natm_types
    let natms ← copy_into_prefix (List.replicate MAX_ATOM_TYPES 0) n f.header.natms_per_type
    let masses ← copy_into_prefix (List.replicate MAX_ATOM_TYPES 0) n f.header.masses_per_type
    pure { atoms := cAtomsOf symToNum f, cell := f.header.boxl, angles := f.header.angles,
           prebox_header := (copy_str_to_c_arr f.header.prebox_header.1,
                             copy_str_to_c_arr f.header.prebox_header.2),
           postbox_header := (copy_str_to_c_arr f.header.postbox_header.1,
                              copy_str_to_c_arr f.header.postbox_header.2),
           natm_types := n, natms_per_type := natms, masses_per_type := masses }

/-- `ffi.rs::read_single_frame`, from the file's lines on: parse the first
frame and build a `CFrame` inline.  Unlike `convert_con_frame_to_c_frame`,
this path performs no `MAX_ATOM_TYPES` check and leaves the header text and
per-type arrays at their zero initializers. -/
def readSingleFrameLines (symToNum : String → Nat) (ls : List String) : Option CFrame :=
  match nextStep ls with
  | some (.ok (f, _)) =>
    some { atoms := cAtomsOf symToNum f, cell := f.header.boxl, angles := f.header.angles,
           prebox_header := ("", ""), postbox_header := ("", ""),
           natm_types := f.header.natm_types,
           natms_per_type := List.replicate MAX_ATOM_TYPES 0,
           masses_per_type := List.replicate MAX_ATOM_TYPES (0 : ℚ) }
  | _ => none

/-- The seen-set loop of `convert_c_frame_to_con_frame`: first occurrence of
each element, in encounter order. -/
def firstSeenAux {α : Type} [DecidableEq α] : List α → List α → List α
  | [], _ => []
  | a :: l, seen =>
    if a ∈ seen then firstSeenAux l seen else a :: firstSeenAux l (a :: seen)

/-- First occurrences in encounter order. -/
def firstSeen {α : Type} [DecidableEq α] (l : List α) : List α := firstSeenAux l []

/-- An owned atom record rebuilt from a `CAtom` under label `L`. -/
def toDatum (L : String) (a : CAtom) : AtomDatum :=
  { symbol := L, x := a.x, y := a.y, z := a.z, is_fixed := a.is_fixed, atom_id := a.atom_id }

/-- `ffi.rs::convert_c_frame_to_con_frame`: `none` on a null pointer.  The
header is copied back directly (per-type arrays truncated to `natm_types`);
the atoms are re-bucketed: labels are collected in first-seen order of their
atomic numbers, then for each label all atoms whose number maps to that label
are emitted in input order.  `numToSym` stands for
`helpers::atomic_number_to_symbol` (the `helpers` module is not under
`src/`). -/
def convert_c_frame_to_con_frame (numToSym : Nat → String) (p : Option CFrame) :
    Option ConFrame :=
  match p with
  | none => none
  | some cf =>
    let n := cf.natm_types
    let header : FrameHeader :=
      { prebox_header := cf.prebox_header, boxl := cf.cell, angles := cf.angles,
        postbox_header := cf.postbox_header, natm_types := n,
        natms_per_type := cf.natms_per_type.take n,
        masses_per_type := cf.masses_per_type.take n }
    let symbols_ordered := (firstSeen (cf.atoms.map (fun a => a.atomic_number))).map numToSym
    let atom_data :=
      (symbols_ordered.map (fun sym =>
        (cf.atoms.filter (fun a => numToSym a.atomic_number = sym)).map (toDatum sym))).flatten
    some { header := header, atom_data := atom_data }

/-- Modelled from the spec: `writer::write_con_file` is referenced by `ffi.rs`
and `main.rs` but absent from `src/`.  Per §4.5, "Writing N frames is writing
each in sequence with no separators ... multi-frame output is the
concatenation of single-frame outputs", which is exactly
`ConFrameWriter::extend` (which is in `src/`). -/
def write_con_file (fs : List ConFrame) : Option (List String) := write_frames fs

/-- `ffi.rs::write_con_file_from_c`, over the frame-pointer array (`none`
elements are null pointers): convert every element, and fail the whole call —
before any file is created or written — unless every element converted. -/
def write_con_file_from_c (numToSym : Nat → String) (frames : List (Option CFrame)) :
    Option (List String) :=
  let rust_frames := frames.filterMap (fun p => convert_c_frame_to_con_frame numToSym p)
  if rust_frames.length = frames.length then write_con_file rust_frames else none

/-- Modelled from the spec: the regrouping clause of §4.6 in the spec's own
words — "atoms are re-bucketed by their label, in first-seen label order, and
emitted in that grouped order" — stated independently of
`convert_c_frame_to_con_frame` so the code can be checked against it. -/
def regroupSpec (numToSym : Nat → String) (atoms : List CAtom) : List AtomDatum :=
  ((firstSeen (atoms.map (fun a => numToSym a.atomic_number))).map (fun L =>
    (atoms.filter (fun a => numToSym a.atomic_number = L)).map (toDatum L))).flatten

/-- Truncation toward zero with saturation at `0` and `u64::MAX`, stated the
way the claim describes Rust's `as u64` cast: negative values become 0,
values at or above `2^64` become `u64::MAX`, and otherwise the value is
truncated toward zero. -/
def u64SatTruncSpec (q : ℚ) : Nat :=
  if q < 0 then 0
  else if (U64SIZE : ℚ) ≤ q then U64SIZE - 1
  else Int.toNat ⌊q⌋

/-- A rational exactly representable with 6 fractional digits — the precision
the on-disk format preserves. -/
def Exact6 (q : ℚ) : Prop := (q * 10 ^ 6).den = 1

/-- Every real value of a frame is exactly representable at the format's
precision (6 fractional digits). -/
def Exact6Frame (f : ConFrame) : Prop :=
  Exact6 f.header.boxl.1 ∧ Exact6 f.header.boxl.2.1 ∧ Exact6 f.header.boxl.2.2 ∧
  Exact6 f.header.angles.1 ∧ Exact6 f.header.angles.2.1 ∧ Exact6 f.header.angles.2.2 ∧
  (∀ m ∈ f.header.masses_per_type, Exact6 m) ∧
  (∀ a ∈ f.atom_data, Exact6 a.x ∧ Exact6 a.y ∧ Exact6 a.z)

/-- The frame's last per-type count is nonzero (or there are no types): the
condition under which `write_frame`'s running offset never reaches past the
end of `atom_data`. -/
def LastTypeNonempty (f : ConFrame) : Prop :=
  f.header.natms_per_type = [] ∨ f.header.natms_per_type.getLast? ≠ some 0

instance (q : ℚ) : Decidable (Exact6 q) := by
  unfold Exact6
  infer_instance

instance (f : ConFrame) : Decidable (Exact6Frame f) := by
  unfold Exact6Frame
  infer_instance

instance (f : ConFrame) : Decidable (LastTypeNonempty f) := by
  unfold LastTypeNonempty
  infer_instance

/-- The fraction-part character list of `fmt6Chars`. -/
def padChars (m : Nat) : List Char :=
  List.replicate (6 - (natDigs m).length) '0' ++ natDigs m

/-- A character list that is a valid whitespace-free, nonempty token. -/
def GoodTok (t : List Char) : Prop := t ≠ [] ∧ ∀ c ∈ t, c.isWhitespace = false

/-- A default atom record (used only as a `headD` default on a branch that is
never reached when the list is nonempty). -/
def defaultAtom : AtomDatum :=
  { symbol := "", x := 0, y := 0, z := 0, is_fixed := false, atom_id := 0 }

/-- The block structure `write_frame` needs to reproduce a frame: at every
type block the remaining atom list is nonempty (so the symbol index is in
bounds), holds at least the block's count of atoms, and the block's atoms all
carry the symbol of its first remaining atom. -/
def WFBlocks : List Nat → List AtomDatum → Prop
  | [], atoms => atoms = []
  | n :: ns, atoms =>
      atoms ≠ [] ∧ n ≤ atoms.length ∧
      (∀ a ∈ atoms.take n, a.symbol = (atoms.headD defaultAtom).symbol) ∧
      WFBlocks ns (atoms.drop n)

/-- The block decomposition guaranteed for every successfully parsed frame:
each type block holds `natms_per_type[i]` consecutive atoms, all carrying the
block's (shared) symbol. -/
def BlocksShape : List Nat → List AtomDatum → Prop
  | [], atoms => atoms = []
  | n :: ns, atoms =>
      n ≤ atoms.length ∧
      (∀ a ∈ atoms.take n, a.symbol = (atoms.headD defaultAtom).symbol) ∧
      BlocksShape ns (atoms.drop n)

/-- Modelled from the spec: a small concrete instance of the
symbol/atomic-number lookup tables of the `helpers` module (absent from
`src/`; the spec treats them as glue), used to instantiate witnesses. -/
def numToSymDemo (n : Nat) : String :=
  if n = 1 then "H" else if n = 29 then "Cu" else "X"

/-- Modelled from the spec: the inverse direction of the demo lookup table. -/
def symToNumDemo (s : String) : Nat :=
  if s = "H" then 1 else if s = "Cu" then 29 else 0

/-- A well-formed one-type, one-atom frame input, as lines. -/
def witLines : List String :=
  ["A", "B", "0 0 0", "0 0 0", "C", "D", "1", "1", "0.5", "H",
   "Coordinates of Component 1", "1.25 -2.5 0 1 7"]

/-- The frame `witLines` decodes to. -/
def witFrame : ConFrame :=
  { header := { prebox_header := ("A", "B"), boxl := (0, 0, 0), angles := (0, 0, 0),
                postbox_header := ("C", "D"), natm_types := 1, natms_per_type := [1],
                masses_per_type := [1/2] },
    atom_data := [{ symbol := "H", x := 5/4, y := -5/2, z := 0, is_fixed := true,
                    atom_id := 7 }] }

/-- A well-formed two-type, three-atom frame input, as lines. -/
def demoLines : List String :=
  ["P1", "P2", "10 10 10", "90 90 90", "Q1", "Q2", "2", "2 1", "63.5 1.0",
   "Cu", "Coordinates of Component 1", "0 0 0 1 0", "1 0 0 1 1",
   "H", "Coordinates of Component 2", "2 2 2 0 2"]

/-- The frame `demoLines` decodes to. -/
def demoFrame : ConFrame :=
  { header := { prebox_header := ("P1", "P2"), boxl := (10, 10, 10),
                angles := (90, 90, 90), postbox_header := ("Q1", "Q2"), natm_types := 2,
                natms_per_type := [2, 1], masses_per_type := [127/2, 1] },
    atom_data :=
      [{ symbol := "Cu", x := 0, y := 0, z := 0, is_fixed := true, atom_id := 0 },
       { symbol := "Cu", x := 1, y := 0, z := 0, is_fixed := true, atom_id := 1 },
       { symbol := "H", x := 2, y := 2, z := 2, is_fixed := false, atom_id := 2 }] }

/-- A decoder-accepted frame input whose single type has zero atoms: the
decoder accepts it, but `write_frame` indexes `atom_data[0]` out of bounds. -/
def cexC1Lines : List String :=
  ["A", "B", "0 0 0", "0 0 0", "C", "D", "1", "0", "0", "S",
   "Coordinates of Component 1"]

/-- The frame `cexC1Lines` decodes to (empty atom list, one type of count 0). -/
def cexC1Frame : ConFrame :=
  { header := { prebox_header := ("A", "B"), boxl := (0, 0, 0), angles := (0, 0, 0),
                postbox_header := ("C", "D"), natm_types := 1, natms_per_type := [0],
                masses_per_type := [0] },
    atom_data := [] }

/-- A frame input whose mass line (header line 9) is malformed but whose
type-count and per-type-count lines are fine: `next()` reports a parse error,
while `forward()` never parses the mass line and succeeds. -/
def cexC3Lines : List String :=
  ["A", "B", "0 0 0", "0 0 0", "C", "D", "1", "1", "bogus", "S",
   "Coordinates of Component 1", "0 0 0 0 0"]

/-- A frame input with 65 atom types (all of count 0): more types than
`MAX_ATOM_TYPES` allows in a `CFrame`. -/
def cex65Lines : List String :=
  ["A", "B", "0 0 0", "0 0 0", "C", "D", "65",
   ⟨joinSp (List.replicate 65 ['0'])⟩, ⟨joinSp (List.replicate 65 ['0'])⟩] ++
  (List.replicate 65 ["S", "M"]).flatten

/-- A concrete `CFrame` with interleaved types, for witnesses of the
boundary-adapter claims. -/
def demoCFrame : CFrame :=
  { atoms :=
      [{ atomic_number := 29, x := 0, y := 0, z := 0, atom_id := 0, mass := 63,
         is_fixed := false },
       { atomic_number := 1, x := 1, y := 0, z := 0, atom_id := 1, mass := 1,
         is_fixed := true },
       { atomic_number := 29, x := 2, y := 0, z := 0, atom_id := 2, mass := 63,
         is_fixed := false }],
    cell := (1, 1, 1), angles := (90, 90, 90), prebox_header := ("a", "b"),
    postbox_header := ("c", "d"), natm_types := 2,
    natms_per_type := [2, 1] ++ List.replicate 62 0,
    masses_per_type := [63, 1] ++ List.replicate 62 0 }

end ReadCon

namespace ReadCon

/-! ## Basic lemmas: `Except`, digits, decimal round-trips -/

theorem except_bind_ok {α β : Type} {x : Except ParseError α} {g : α → Except ParseError β}
    {b : β} : x.bind g = .ok b ↔ ∃ a, x = .ok a ∧ g a = .ok b := by
  cases x <;> simp [Except.bind]

theorem except_bind_error {α β : Type} {x : Except ParseError α} {g : α → Except ParseError β}
    {e : ParseError} :
    x.bind g = .error e ↔ x = .error e ∨ ∃ a, x = .ok a ∧ g a = .error e := by
  cases x <;> simp [Except.bind]

theorem charVal_digitChar {d : Nat} (h : d < 10) : charVal (digitChar d) = d := by
  interval_cases d <;> rfl

theorem isDigit_digitChar {d : Nat} (h : d < 10) : (digitChar d).isDigit = true := by
  interval_cases d <;> rfl

theorem digitsToNat_from (a : Nat) (l : List Char) :
    l.foldl (fun a c => a * 10 + charVal c) a = a * 10 ^ l.length + digitsToNat l := by
  induction l generalizing a with
  | nil => simp [digitsToNat]
  | cons c l ih =>
    simp only [List.foldl_cons, digitsToNat, List.length_cons]
    rw [ih (a * 10 + charVal c), ih (0 * 10 + charVal c)]
    ring

theorem digitsToNat_append (l1 l2 : List Char) :
    digitsToNat (l1 ++ l2) = digitsToNat l1 * 10 ^ l2.length + digitsToNat l2 := by
  simp only [digitsToNat, List.foldl_append]
  rw [digitsToNat_from (List.foldl (fun a c => a * 10 + charVal c) 0 l1) l2]
  rfl

theorem digitsToNat_concat (l : List Char) (c : Char) :
    digitsToNat (l ++ [c]) = digitsToNat l * 10 + charVal c := by
  rw [digitsToNat_append]
  simp [digitsToNat]

theorem digitsToNat_replicate_zero (k : Nat) (l : List Char) :
    digitsToNat (List.replicate k '0' ++ l) = digitsToNat l := by
  rw [digitsToNat_append]
  have h0 : digitsToNat (List.replicate k '0') = 0 := by
    induction k with
    | zero => rfl
    | succ k ih =>
      rw [List.replicate_succ]
      simpa [digitsToNat, charVal] using ih
  simp [h0]

theorem natDigsAux_val {fuel n : Nat} (h : n ≤ fuel) :
    digitsToNat (natDigsAux fuel n) = n := by
  induction fuel generalizing n with
  | zero => interval_cases n; rfl
  | succ fuel ih =>
    by_cases hn : n = 0
    · subst hn; rfl
    · have hrec : n / 10 ≤ fuel := by
        have := Nat.div_lt_self (Nat.pos_of_ne_zero hn) (by norm_num : 1 < 10)
        omega
      rw [natDigsAux, if_neg hn, digitsToNat_concat, ih hrec,
        charVal_digitChar (Nat.mod_lt n (by norm_num))]
      omega

theorem digitsToNat_natDigs (n : Nat) : digitsToNat (natDigs n) = n := by
  by_cases hn : n = 0
  · subst hn; rfl
  · rw [natDigs, if_neg hn, natDigsAux_val (le_refl n)]

theorem natDigsAux_digits {fuel n : Nat} {c : Char} (h : c ∈ natDigsAux fuel n) :
    c.isDigit = true := by
  induction fuel generalizing n with
  | zero => simp [natDigsAux] at h
  | succ fuel ih =>
    rw [natDigsAux] at h
    by_cases hn : n = 0
    · simp [hn] at h
    · rw [if_neg hn] at h
      rcases List.mem_append.mp h with h1 | h2
      · exact ih h1
      · simp at h2
        subst h2
        exact isDigit_digitChar (Nat.mod_lt n (by norm_num))

theorem natDigs_digits {n : Nat} {c : Char} (h : c ∈ natDigs n) : c.isDigit = true := by
  by_cases hn : n = 0
  · subst hn; simp [natDigs] at h; subst h; rfl
  · rw [natDigs, if_neg hn] at h; exact natDigsAux_digits h

theorem natDigs_ne_nil (n : Nat) : natDigs n ≠ [] := by
  by_cases hn : n = 0
  · subst hn; simp [natDigs]
  · rw [natDigs, if_neg hn]
    have h1 : 1 ≤ n := Nat.pos_of_ne_zero hn
    obtain ⟨f, hf⟩ : ∃ f, n = f + 1 := ⟨n - 1, by omega⟩
    rw [hf, natDigsAux, if_neg (by omega)]
    simp

theorem natDigsAux_length {fuel n k : Nat} (hf : n ≤ fuel) (h : n < 10 ^ k) :
    (natDigsAux fuel n).length ≤ k := by
  induction fuel generalizing n k with
  | zero => simp [natDigsAux]
  | succ fuel ih =>
    by_cases hn : n = 0
    · subst hn; simp [natDigsAux]
    · have hk : k ≠ 0 := by
        intro hk0
        rw [hk0, pow_zero] at h
        omega
      obtain ⟨k1, hk1⟩ : ∃ k1, k = k1 + 1 := ⟨k - 1, by omega⟩
      have hrec : n / 10 ≤ fuel := by
        have := Nat.div_lt_self (Nat.pos_of_ne_zero hn) (by norm_num : 1 < 10)
        omega
      have hdiv : n / 10 < 10 ^ k1 := by
        rw [Nat.div_lt_iff_lt_mul (by norm_num : 0 < 10)]
        calc n < 10 ^ k := h
        _ = 10 ^ k1 * 10 := by rw [hk1]; ring
      rw [natDigsAux, if_neg hn]
      simp only [List.length_append, List.length_cons, List.length_nil]
      have := ih hrec hdiv
      omega

theorem natDigs_length_le {n k : Nat} (h : n < 10 ^ k) (hk : 0 < k) :
    (natDigs n).length ≤ k := by
  by_cases hn : n = 0
  · subst hn; simpa [natDigs] using hk
  · rw [natDigs, if_neg hn]; exact natDigsAux_length (le_refl n) h

theorem digit_ne {c d : Char} (hc : c.isDigit = true) (hd : d.isDigit = false) : c ≠ d := by
  intro h
  rw [h, hd] at hc
  cases hc

theorem digit_not_ws {c : Char} (h : c.isDigit = true) : c.isWhitespace = false := by
  have h1 : c ≠ ' ' := digit_ne h (by decide)
  have h2 : c ≠ '\t' := digit_ne h (by decide)
  have h3 : c ≠ '\r' := digit_ne h (by decide)
  have h4 : c ≠ '\n' := digit_ne h (by decide)
  simp [Char.isWhitespace, h1, h2, h3, h4]

/-! ## Decimal token round-trips -/

theorem parseNatTok_natRepr {n : Nat} (h : n < U64SIZE) : parseNatTok (natRepr n) = .ok n := by
  have hne := natDigs_ne_nil n
  obtain ⟨c, cs, hcons⟩ : ∃ c cs, natDigs n = c :: cs := by
    cases hd : natDigs n with
    | nil => exact absurd hd hne
    | cons c cs => exact ⟨c, cs, rfl⟩
  have hcd : c.isDigit = true := natDigs_digits (by rw [hcons]; exact List.mem_cons_self c cs)
  have hplus : c ≠ '+' := digit_ne hcd (by decide)
  have hall : (c :: cs).all (fun c => c.isDigit) = true := by
    rw [List.all_eq_true]
    intro x hx
    exact natDigs_digits (by rw [hcons]; exact hx)
  have hlist : (natRepr n).toList = c :: cs := hcons
  rw [parseNatTok, hlist]
  simp only [if_neg hplus]
  have hcond : ((c :: cs : List Char) ≠ [] && (c :: cs).all (fun c => c.isDigit)) = true := by
    simp [hall]
  rw [hcond]
  simp only [if_true]
  rw [← hcons, digitsToNat_natDigs]
  simp [h]

theorem splitAtChar_no_hit {p : Char → Bool} {l : List Char} (h : ∀ c ∈ l, p c = false) :
    splitAtChar p l = (l, none) := by
  induction l with
  | nil => rfl
  | cons c cs ih =>
    rw [splitAtChar, if_neg (by simp [h c (List.mem_cons_self c cs)]),
      ih (fun x hx => h x (List.mem_cons_of_mem c hx))]

theorem splitAtChar_hit {p : Char → Bool} {l1 l2 : List Char} {d : Char}
    (h : ∀ c ∈ l1, p c = false) (hd : p d = true) :
    splitAtChar p (l1 ++ d :: l2) = (l1, some l2) := by
  induction l1 with
  | nil => simp [splitAtChar, hd]
  | cons c cs ih =>
    rw [List.cons_append, splitAtChar, if_neg (by simp [h c (List.mem_cons_self c cs)]),
      ih (fun x hx => h x (List.mem_cons_of_mem c hx))]

theorem digit_not_exp {c : Char} (h : c.isDigit = true) : (c = 'e' || c = 'E') = false := by
  have h1 : c ≠ 'e' := digit_ne h (by decide)
  have h2 : c ≠ 'E' := digit_ne h (by decide)
  simp [h1, h2]

theorem digit_not_dot {c : Char} (h : c.isDigit = true) : c ≠ '.' :=
  digit_ne h (by decide)

theorem floatBody_decimal {sgn : ℚ} {ipl fpl : List Char} (hip : ipl ≠ [])
    (hipd : ∀ c ∈ ipl, c.isDigit = true) (hfpd : ∀ c ∈ fpl, c.isDigit = true) :
    floatBody sgn (ipl ++ '.' :: fpl) =
      some (sgn * ((digitsToNat (ipl ++ fpl) : ℚ) / 10 ^ fpl.length)) := by
  have hnoexp : ∀ c ∈ ipl ++ '.' :: fpl, (decide (c = 'e') || decide (c = 'E')) = false := by
    intro c hc
    rcases List.mem_append.mp hc with h1 | h2
    · simpa using digit_not_exp (hipd c h1)
    · rcases List.mem_cons.mp h2 with rfl | h3
      · decide
      · simpa using digit_not_exp (hfpd c h3)
  have hnodot : ∀ c ∈ ipl, (decide (c = '.')) = false := by
    intro c hc
    simp [digit_not_dot (hipd c hc)]
  rw [floatBody]
  rw [splitAtChar_no_hit hnoexp]
  simp only
  rw [splitAtChar_hit hnodot (by decide)]
  simp only [Option.getD_some]
  rw [if_pos]
  · rw [mantissaVal]
    norm_num
  · simp only [Bool.and_eq_true, List.all_eq_true, decide_eq_true_eq]
    refine ⟨⟨fun c hc => hipd c hc, fun c hc => hfpd c hc⟩, ?_⟩
    simp [hip]

theorem floatBody_digits {sgn : ℚ} {l : List Char} (hne : l ≠ [])
    (hd : ∀ c ∈ l, c.isDigit = true) :
    floatBody sgn l = some (sgn * (digitsToNat l : ℚ)) := by
  have hnoexp : ∀ c ∈ l, (decide (c = 'e') || decide (c = 'E')) = false := by
    intro c hc
    simpa using digit_not_exp (hd c hc)
  have hnodot : ∀ c ∈ l, (decide (c = '.')) = false := by
    intro c hc
    simp [digit_not_dot (hd c hc)]
  rw [floatBody]
  rw [splitAtChar_no_hit hnoexp]
  simp only
  rw [splitAtChar_no_hit hnodot]
  simp only [Option.getD_none]
  rw [if_pos]
  · rw [mantissaVal]
    norm_num
  · simp only [Bool.and_eq_true, List.all_eq_true, decide_eq_true_eq]
    refine ⟨⟨fun c hc => hd c hc, by intro c hc; simp at hc⟩, ?_⟩
    simp [hne]

theorem floatVal?_digit_head {c : Char} {r : List Char} (h : c.isDigit = true) :
    floatVal? (c :: r) = floatBody 1 (c :: r) := by
  rw [floatVal?, if_neg (digit_ne h (by decide)), if_neg (digit_ne h (by decide))]

theorem floatVal?_neg (r : List Char) : floatVal? ('-' :: r) = floatBody (-1) r := by
  rw [floatVal?, if_pos rfl]

theorem parseFloatTok_natRepr (n : Nat) : parseFloatTok (natRepr n) = .ok (n : ℚ) := by
  obtain ⟨c, cs, hcons⟩ : ∃ c cs, natDigs n = c :: cs := by
    cases hd : natDigs n with
    | nil => exact absurd hd (natDigs_ne_nil n)
    | cons c cs => exact ⟨c, cs, rfl⟩
  have hcd : c.isDigit = true := natDigs_digits (by rw [hcons]; exact List.mem_cons_self c cs)
  have hlist : (natRepr n).toList = c :: cs := hcons
  rw [parseFloatTok, hlist, floatVal?_digit_head hcd, ← hcons,
    floatBody_digits (natDigs_ne_nil n) (fun x hx => natDigs_digits hx), digitsToNat_natDigs]
  norm_num

theorem padChars_digits {m : Nat} : ∀ c ∈ padChars m, c.isDigit = true := by
  intro c hc
  rcases List.mem_append.mp hc with h1 | h2
  · rw [List.eq_of_mem_replicate h1]; rfl
  · exact natDigs_digits h2

theorem padChars_length {m : Nat} (h : m < 10 ^ 6) : (padChars m).length = 6 := by
  have hle : (natDigs m).length ≤ 6 := natDigs_length_le h (by norm_num)
  simp only [padChars, List.length_append, List.length_replicate]
  omega

theorem fmt6Chars_decomp (q : ℚ) :
    fmt6Chars q = (if q < 0 then ['-'] else []) ++
      (natDigs ((round (|q| * 10 ^ 6)).toNat / 10 ^ 6) ++
        '.' :: padChars ((round (|q| * 10 ^ 6)).toNat % 10 ^ 6)) := by
  simp only [fmt6Chars, padChars, List.append_assoc]

theorem body_val_eq {a : Nat} :
    (digitsToNat (natDigs (a / 10 ^ 6) ++ padChars (a % 10 ^ 6)) : ℚ) /
      10 ^ (padChars (a % 10 ^ 6)).length = (a : ℚ) / 10 ^ 6 := by
  have hm : a % 10 ^ 6 < 10 ^ 6 := Nat.mod_lt a (by norm_num)
  rw [padChars_length hm, digitsToNat_append, padChars_length hm, digitsToNat_natDigs]
  rw [show digitsToNat (padChars (a % 10 ^ 6)) = a % 10 ^ 6 from by
    rw [padChars, digitsToNat_replicate_zero, digitsToNat_natDigs]]
  have hda : a / 10 ^ 6 * 10 ^ 6 + a % 10 ^ 6 = a := by omega
  rw [hda]

theorem floatBody_fmt6_body {sgn : ℚ} (a : Nat) :
    floatBody sgn (natDigs (a / 10 ^ 6) ++ '.' :: padChars (a % 10 ^ 6)) =
      some (sgn * ((a : ℚ) / 10 ^ 6)) := by
  rw [floatBody_decimal (natDigs_ne_nil _) (fun x hx => natDigs_digits hx)
    (fun x hx => padChars_digits x hx), body_val_eq]

theorem abs_round_val {q : ℚ} {z : ℤ} (hz : q * 10 ^ 6 = (z : ℚ)) :
    (round (|q| * 10 ^ 6)).toNat = z.natAbs := by
  have habs : |q| * 10 ^ 6 = ((z.natAbs : ℚ)) := by
    rw [Int.cast_natAbs, Int.cast_abs, ← hz, abs_mul,
      abs_of_pos (by norm_num : (0 : ℚ) < 10 ^ 6)]
  rw [habs, round_natCast, Int.toNat_natCast]

theorem exact6_int {q : ℚ} (h : Exact6 q) : ∃ z : ℤ, q * 10 ^ 6 = (z : ℚ) :=
  ⟨(q * 10 ^ 6).num, ((Rat.den_eq_one_iff _).mp h).symm⟩

theorem parseFloatTok_fmt6 {q : ℚ} (h : Exact6 q) : parseFloatTok (fmt6 q) = .ok q := by
  obtain ⟨z, hz⟩ := exact6_int h
  have ha : (round (|q| * 10 ^ 6)).toNat = z.natAbs := abs_round_val hz
  have hq : q = (z : ℚ) / 10 ^ 6 := by
    field_simp
    linarith [hz]
  have htl : (fmt6 q).toList = fmt6Chars q := rfl
  by_cases hneg : q < 0
  · have hzneg : (z : ℚ) < 0 := by
      by_contra hc
      push_neg at hc
      have h2 := div_nonneg hc (by norm_num : (0 : ℚ) ≤ 10 ^ 6)
      rw [← hq] at h2
      linarith
    have hdec : fmt6Chars q = '-' :: (natDigs (z.natAbs / 10 ^ 6) ++
        '.' :: padChars (z.natAbs % 10 ^ 6)) := by
      rw [fmt6Chars_decomp, ha, if_pos hneg]
      rfl
    rw [parseFloatTok, htl, hdec, floatVal?_neg, floatBody_fmt6_body]
    have hval : (-1 : ℚ) * ((z.natAbs : ℚ) / 10 ^ 6) = q := by
      rw [hq, Int.cast_natAbs, Int.cast_abs, abs_of_neg hzneg]
      ring
    rw [hval]
  · have hzpos : (0 : ℚ) ≤ (z : ℚ) := by
      by_contra hc
      push_neg at hc
      have h2 := div_neg_of_neg_of_pos hc (by norm_num : (0 : ℚ) < 10 ^ 6)
      rw [← hq] at h2
      exact hneg h2
    have hdec : fmt6Chars q = natDigs (z.natAbs / 10 ^ 6) ++
        '.' :: padChars (z.natAbs % 10 ^ 6) := by
      rw [fmt6Chars_decomp, ha, if_neg hneg]
      rfl
    obtain ⟨c, cs, hcons⟩ : ∃ c cs, natDigs (z.natAbs / 10 ^ 6) = c :: cs := by
      cases hd : natDigs (z.natAbs / 10 ^ 6) with
      | nil => exact absurd hd (natDigs_ne_nil _)
      | cons c cs => exact ⟨c, cs, rfl⟩
    have hcd : c.isDigit = true := natDigs_digits (by rw [hcons]; exact List.mem_cons_self c cs)
    rw [parseFloatTok, htl, hdec, hcons, List.cons_append,
      floatVal?_digit_head hcd, ← List.cons_append, ← hcons, floatBody_fmt6_body]
    have hval : (1 : ℚ) * ((z.natAbs : ℚ) / 10 ^ 6) = q := by
      rw [hq, Int.cast_natAbs, Int.cast_abs, abs_of_nonneg hzpos]
      ring
    rw [hval]

/-! ## `split_whitespace` on space-joined tokens -/

theorem splitWsAux_push {t rest : List Char} {acc : List Char}
    (h : ∀ c ∈ t, c.isWhitespace = false) :
    splitWsAux (t ++ rest) acc = splitWsAux rest (t.reverse ++ acc) := by
  induction t generalizing acc with
  | nil => simp
  | cons c cs ih =>
    rw [List.cons_append, splitWsAux, if_neg (by simp [h c (List.mem_cons_self c cs)]),
      ih (fun x hx => h x (List.mem_cons_of_mem c hx))]
    simp

theorem splitWsAux_join {ts : List (List Char)} (h : ∀ t ∈ ts, GoodTok t) :
    splitWsAux (joinSp ts) [] = ts := by
  induction ts with
  | nil => rfl
  | cons t ts ih =>
    obtain ⟨hne, hnw⟩ := h t (List.mem_cons_self t ts)
    cases ts with
    | nil =>
      have hj : joinSp [t] = t := rfl
      rw [hj, show t = t ++ [] from by simp, splitWsAux_push hnw]
      rw [splitWsAux]
      simp [hne]
    | cons t2 ts2 =>
      have hj : joinSp (t :: t2 :: ts2) = t ++ ' ' :: joinSp (t2 :: ts2) := rfl
      rw [hj, splitWsAux_push hnw, splitWsAux,
        if_pos (by decide), if_neg (by simp [hne])]
      rw [ih (fun x hx => h x (List.mem_cons_of_mem t hx))]
      simp

theorem splitWs_join {ts : List (List Char)} (h : ∀ t ∈ ts, GoodTok t) :
    splitWs ⟨joinSp ts⟩ = ts.map (fun l => ⟨l⟩) := by
  rw [splitWs]
  rw [show (String.mk (joinSp ts)).toList = joinSp ts from rfl, splitWsAux_join h]

theorem mapM_ok_of_forall {α : Type} {tok : String → Except ParseError α}
    {ts : List String} {vs : List α} (h : List.Forall₂ (fun t v => tok t = .ok v) ts vs) :
    ts.mapM tok = .ok vs := by
  induction h with
  | nil => rfl
  | cons hh _ ih =>
    rw [List.mapM_cons, hh, ih]
    rfl

theorem parse_line_of_n_join {α : Type} {tok : String → Except ParseError α}
    {ts : List (List Char)} {vs : List α} (hg : ∀ t ∈ ts, GoodTok t)
    (h : List.Forall₂ (fun t v => tok (String.mk t) = .ok v) ts vs) :
    parse_line_of_n tok ⟨joinSp ts⟩ vs.length = .ok vs := by
  rw [parse_line_of_n, splitWs_join hg]
  have hm : (ts.map (fun l => (⟨l⟩ : String))).mapM tok = .ok vs := by
    apply mapM_ok_of_forall
    clear hg
    induction h with
    | nil => exact List.Forall₂.nil
    | cons hh ht ih => exact List.Forall₂.cons hh ih
  rw [show ((ts.map fun l => (⟨l⟩ : String)).mapM tok >>= fun values =>
      if values.length = vs.length then pure values
      else Except.error (.InvalidVectorLength vs.length values.length)) =
      ((Except.ok vs : Except ParseError (List α)) >>= fun values =>
      if values.length = vs.length then pure values
      else Except.error (.InvalidVectorLength vs.length values.length)) from by rw [hm]]
  simp [Bind.bind, Except.bind, pure, Except.pure]

/-! ## `str::trim` is idempotent -/

theorem dropWhile_head_false {p : Char → Bool} {l : List Char} {c : Char}
    (h : (l.dropWhile p).head? = some c) : p c = false := by
  induction l with
  | nil => simp [List.dropWhile] at h
  | cons a l ih =>
    rw [List.dropWhile_cons] at h
    by_cases hp : p a = true
    · rw [if_pos hp] at h
      exact ih h
    · rw [if_neg hp] at h
      simp at h
      rw [← h]
      simpa using hp

theorem dropWhile_eq_self_of_head {p : Char → Bool} {l : List Char}
    (h : ∀ c, l.head? = some c → p c = false) : l.dropWhile p = l := by
  cases l with
  | nil => rfl
  | cons a l => rw [List.dropWhile_cons, if_neg (by simp [h a rfl])]

theorem dropWhile_prefix_exists (p : Char → Bool) (l : List Char) :
    ∃ t, l = t ++ l.dropWhile p := by
  induction l with
  | nil => exact ⟨[], rfl⟩
  | cons a l ih =>
    by_cases hp : p a = true
    · obtain ⟨t, ht⟩ := ih
      refine ⟨a :: t, ?_⟩
      rw [List.dropWhile_cons, if_pos hp, List.cons_append, ← ht]
    · exact ⟨[], by rw [List.dropWhile_cons, if_neg hp]; rfl⟩

theorem trimList_idem (l : List Char) : trimList (trimList l) = trimList l := by
  cases hv : ((l.dropWhile (fun c => c.isWhitespace)).reverse.dropWhile
      (fun c => c.isWhitespace)) with
  | nil =>
    have h0 : trimList l = [] := by rw [trimList, hv]; rfl
    rw [h0]
    rfl
  | cons c0 v =>
    have hTL : trimList l = (c0 :: v).reverse := by rw [trimList, hv]
    have hc0 : c0.isWhitespace = false := dropWhile_head_false (by rw [hv]; rfl)
    have hune : (l.dropWhile (fun c => c.isWhitespace)) ≠ [] := by
      intro h0
      rw [h0] at hv
      simp at hv
    obtain ⟨c1, u, hu⟩ : ∃ c1 u, l.dropWhile (fun c => c.isWhitespace) = c1 :: u := by
      cases hu : l.dropWhile (fun c => c.isWhitespace) with
      | nil => exact absurd hu hune
      | cons c1 u => exact ⟨c1, u, rfl⟩
    have hc1 : c1.isWhitespace = false := dropWhile_head_false (by rw [hu]; rfl)
    obtain ⟨t, ht⟩ := dropWhile_prefix_exists (fun c => c.isWhitespace)
      ((l.dropWhile (fun c => c.isWhitespace)).reverse)
    have hlast : (c0 :: v).getLast? = some c1 := by
      have h1 : ((l.dropWhile (fun c => c.isWhitespace)).reverse).getLast? = some c1 := by
        rw [List.getLast?_reverse, hu]
        rfl
      rw [ht, hv, List.getLast?_append] at h1
      obtain ⟨x, hx⟩ : ∃ x, (c0 :: v).getLast? = some x := by
        cases hgl : (c0 :: v).getLast? with
        | none => simp at hgl
        | some x => exact ⟨x, rfl⟩
      rw [hx] at h1
      simp only [Option.or] at h1
      rw [hx, h1]
    rw [hTL, trimList]
    have h1 : ((c0 :: v).reverse).dropWhile (fun c => c.isWhitespace) = (c0 :: v).reverse := by
      apply dropWhile_eq_self_of_head
      intro c hc
      rw [List.head?_reverse, hlast] at hc
      injection hc with hc
      rw [← hc]
      exact hc1
    rw [h1, List.reverse_reverse]
    have h2 : (c0 :: v).dropWhile (fun c => c.isWhitespace) = c0 :: v := by
      apply dropWhile_eq_self_of_head
      intro c hc
      injection hc with hc
      rw [← hc]
      exact hc0
    rw [h2]

theorem strTrim_idem (s : String) : strTrim (strTrim s) = strTrim s := by
  rw [strTrim, strTrim]
  rw [show (String.mk (trimList s.toList)).toList = trimList s.toList from rfl, trimList_idem]

/-! ## The writer's output reparses -/

theorem goodTok_natDigs (n : Nat) : GoodTok (natDigs n) :=
  ⟨natDigs_ne_nil n, fun _ hc => digit_not_ws (natDigs_digits hc)⟩

theorem fmt6Chars_not_ws {q : ℚ} {c : Char} (h : c ∈ fmt6Chars q) : c.isWhitespace = false := by
  rw [fmt6Chars_decomp] at h
  rcases List.mem_append.mp h with h1 | h2
  · by_cases hq : q < 0
    · rw [if_pos hq] at h1
      simp at h1
      rw [h1]
      decide
    · rw [if_neg hq] at h1
      simp at h1
  · rcases List.mem_append.mp h2 with h3 | h4
    · exact digit_not_ws (natDigs_digits h3)
    · rcases List.mem_cons.mp h4 with rfl | h5
      · decide
      · exact digit_not_ws (padChars_digits c h5)

theorem goodTok_fmt6 (q : ℚ) : GoodTok (fmt6Chars q) := by
  refine ⟨?_, fun _ hc => fmt6Chars_not_ws hc⟩
  rw [fmt6Chars_decomp]
  intro hnil
  rcases List.append_eq_nil.mp hnil with ⟨_, h2⟩
  rcases List.append_eq_nil.mp h2 with ⟨h3, _⟩
  exact natDigs_ne_nil _ h3

theorem forall2_map {α β : Type} {f : α → β} {P : β → α → Prop} :
    ∀ {l : List α}, (∀ a ∈ l, P (f a) a) → List.Forall₂ P (l.map f) l
  | [], _ => List.Forall₂.nil
  | a :: l, h =>
    List.Forall₂.cons (h a (List.mem_cons_self a l))
      (forall2_map (fun x hx => h x (List.mem_cons_of_mem a hx)))

theorem parse_natms_line {natms : List Nat} (hnn : ∀ n ∈ natms, n < U64SIZE) :
    parse_line_of_n parseNatTok ⟨joinSp (natms.map natDigs)⟩ natms.length = .ok natms := by
  exact parse_line_of_n_join (fun t ht => by
      obtain ⟨n, _, hn⟩ := List.mem_map.mp ht
      rw [← hn]
      exact goodTok_natDigs n)
    (forall2_map (fun n hn => parseNatTok_natRepr (hnn n hn)))

theorem parse_masses_line {masses : List ℚ} (hms : ∀ m ∈ masses, Exact6 m) :
    parse_line_of_n parseFloatTok ⟨joinSp (masses.map fmt6Chars)⟩ masses.length = .ok masses := by
  exact parse_line_of_n_join (fun t ht => by
      obtain ⟨m, _, hm⟩ := List.mem_map.mp ht
      rw [← hm]
      exact goodTok_fmt6 m)
    (forall2_map (fun m hm => parseFloatTok_fmt6 (hms m hm)))

theorem parse_triple_line {b1 b2 b3 : ℚ} (h1 : Exact6 b1) (h2 : Exact6 b2) (h3 : Exact6 b3) :
    parse_line_of_n parseFloatTok ⟨joinSp [fmt6Chars b1, fmt6Chars b2, fmt6Chars b3]⟩ 3 =
      .ok [b1, b2, b3] := by
  have := @parse_line_of_n_join _ parseFloatTok
    [fmt6Chars b1, fmt6Chars b2, fmt6Chars b3] [b1, b2, b3]
    (by
      intro t ht
      rcases List.mem_cons.mp ht with rfl | ht2
      · exact goodTok_fmt6 b1
      rcases List.mem_cons.mp ht2 with rfl | ht3
      · exact goodTok_fmt6 b2
      rcases List.mem_cons.mp ht3 with rfl | ht4
      · exact goodTok_fmt6 b3
      · simp at ht4)
    (List.Forall₂.cons (parseFloatTok_fmt6 h1)
      (List.Forall₂.cons (parseFloatTok_fmt6 h2)
        (List.Forall₂.cons (parseFloatTok_fmt6 h3) List.Forall₂.nil)))
  simpa using this

theorem parse_count_line {n : Nat} (h : n < U64SIZE) :
    parse_line_of_n parseNatTok (natRepr n) 1 = .ok [n] := by
  have := @parse_line_of_n_join _ parseNatTok [natDigs n] [n]
    (by
      intro t ht
      rcases List.mem_cons.mp ht with rfl | ht2
      · exact goodTok_natDigs n
      · simp at ht2)
    (List.Forall₂.cons (parseNatTok_natRepr h) List.Forall₂.nil)
  simpa using this

theorem parse_frame_header_of_written (h : FrameHeader) (rest : List String)
    (hl1 : h.natms_per_type.length = h.natm_types)
    (hl2 : h.masses_per_type.length = h.natm_types)
    (hnt : h.natm_types < U64SIZE)
    (hnn : ∀ n ∈ h.natms_per_type, n < U64SIZE)
    (hbx : Exact6 h.boxl.1 ∧ Exact6 h.boxl.2.1 ∧ Exact6 h.boxl.2.2)
    (han : Exact6 h.angles.1 ∧ Exact6 h.angles.2.1 ∧ Exact6 h.angles.2.2)
    (hms : ∀ m ∈ h.masses_per_type, Exact6 m) :
    parse_frame_header (headerLines h ++ rest) = .ok (h, rest) := by
  obtain ⟨⟨p1, p2⟩, ⟨b1, b2, b3⟩, ⟨a1, a2, a3⟩, ⟨q1, q2⟩, nt, natms, masses⟩ := h
  simp only at hl1 hl2 hnt hnn hbx han hms
  have hbox := parse_triple_line hbx.1 hbx.2.1 hbx.2.2
  have hang := parse_triple_line han.1 han.2.1 han.2.2
  have hcnt := parse_count_line hnt
  have hnatms : parse_line_of_n parseNatTok ⟨joinSp (natms.map natDigs)⟩ nt = .ok natms := by
    rw [← hl1]
    exact parse_natms_line hnn
  have hmasses : parse_line_of_n parseFloatTok ⟨joinSp (masses.map fmt6Chars)⟩ nt =
      .ok masses := by
    rw [← hl2]
    exact parse_masses_line hms
  simp only [headerLines, List.cons_append, List.nil_append]
  simp only [parse_frame_header, popH, Bind.bind, Except.bind, hbox, hang, hcnt, hnatms,
    hmasses, List.headD, tripleOf, List.drop, pure, Except.pure]

theorem f64_as_u64_natCast {n : Nat} (h : n < U64SIZE) : f64_as_u64 (n : ℚ) = n := by
  rw [f64_as_u64, if_neg (not_lt.mpr (by positivity)), Int.floor_natCast, Int.toNat_natCast]
  exact min_eq_left (Nat.le_sub_one_of_lt h)

theorem parse_atom_line (a : AtomDatum) (hex : Exact6 a.x ∧ Exact6 a.y ∧ Exact6 a.z)
    (_hid : a.atom_id < U64SIZE) :
    parse_line_of_n parseFloatTok (atomLine a) 5 =
      .ok [a.x, a.y, a.z, (if a.is_fixed then (1 : ℚ) else 0), (a.atom_id : ℚ)] := by
  have hflag : GoodTok (if a.is_fixed then ['1'] else ['0']) := by
    cases a.is_fixed <;> exact ⟨by simp, by intro c hc; simp at hc; rw [hc]; decide⟩
  have hflagp : parseFloatTok ⟨if a.is_fixed then ['1'] else ['0']⟩ =
      .ok (if a.is_fixed then (1 : ℚ) else 0) := by
    cases a.is_fixed <;> decide
  have := @parse_line_of_n_join _ parseFloatTok
    [fmt6Chars a.x, fmt6Chars a.y, fmt6Chars a.z,
     (if a.is_fixed then ['1'] else ['0']), natDigs a.atom_id]
    [a.x, a.y, a.z, (if a.is_fixed then (1 : ℚ) else 0), (a.atom_id : ℚ)]
    (by
      intro t ht
      rcases List.mem_cons.mp ht with rfl | ht
      · exact goodTok_fmt6 a.x
      rcases List.mem_cons.mp ht with rfl | ht
      · exact goodTok_fmt6 a.y
      rcases List.mem_cons.mp ht with rfl | ht
      · exact goodTok_fmt6 a.z
      rcases List.mem_cons.mp ht with rfl | ht
      · exact hflag
      rcases List.mem_cons.mp ht with rfl | ht
      · exact goodTok_natDigs a.atom_id
      · simp at ht)
    (List.Forall₂.cons (parseFloatTok_fmt6 hex.1)
      (List.Forall₂.cons (parseFloatTok_fmt6 hex.2.1)
        (List.Forall₂.cons (parseFloatTok_fmt6 hex.2.2)
          (List.Forall₂.cons hflagp
            (List.Forall₂.cons (parseFloatTok_natRepr a.atom_id) List.Forall₂.nil)))))
  simpa using this

theorem mkAtom_roundtrip (a : AtomDatum) (hid : a.atom_id < U64SIZE) :
    mkAtom a.symbol [a.x, a.y, a.z, (if a.is_fixed then (1 : ℚ) else 0), (a.atom_id : ℚ)] =
      a := by
  obtain ⟨sym, x, y, z, fx, id⟩ := a
  simp only [mkAtom, List.headD, List.drop]
  simp only at hid
  rw [f64_as_u64_natCast hid]
  cases fx <;> norm_num

theorem parse_coords_of_written {sym : String} {atoms : List AtomDatum} {rest : List String}
    (hsym : ∀ a ∈ atoms, a.symbol = sym)
    (hex : ∀ a ∈ atoms, Exact6 a.x ∧ Exact6 a.y ∧ Exact6 a.z)
    (hid : ∀ a ∈ atoms, a.atom_id < U64SIZE) :
    parse_coords sym atoms.length (atoms.map atomLine ++ rest) = .ok (atoms, rest) := by
  induction atoms with
  | nil => rfl
  | cons a l ih =>
    have hmem := List.mem_cons_self a l
    simp only [List.map_cons, List.length_cons, List.cons_append]
    rw [parse_coords]
    simp only [popF, Bind.bind, Except.bind,
      parse_atom_line a (hex a hmem) (hid a hmem),
      ih (fun x hx => hsym x (List.mem_cons_of_mem a hx))
         (fun x hx => hex x (List.mem_cons_of_mem a hx))
         (fun x hx => hid x (List.mem_cons_of_mem a hx)),
      pure, Except.pure]
    rw [← hsym a hmem, mkAtom_roundtrip a (hid a hmem)]

theorem parse_blocks_of_written {natms : List Nat} {atoms : List AtomDatum}
    {tidx : Nat} {rest : List String}
    (hwf : WFBlocks natms atoms)
    (htrim : ∀ a ∈ atoms, strTrim a.symbol = a.symbol)
    (hex : ∀ a ∈ atoms, Exact6 a.x ∧ Exact6 a.y ∧ Exact6 a.z)
    (hid : ∀ a ∈ atoms, a.atom_id < U64SIZE) :
    ∃ bls, writeBlocks atoms tidx natms = some bls ∧
      parse_blocks natms (bls ++ rest) = .ok (atoms, rest) := by
  induction natms generalizing atoms tidx rest with
  | nil =>
    rw [show atoms = [] from hwf]
    exact ⟨[], rfl, rfl⟩
  | cons n ns ih =>
    obtain ⟨hne, hlen, hsh, hrec⟩ := hwf
    obtain ⟨a0, arest, ha0⟩ : ∃ a0 arest, atoms = a0 :: arest := by
      cases hc : atoms with
      | nil => exact absurd hc hne
      | cons a0 arest => exact ⟨a0, arest, rfl⟩
    subst ha0
    have hdropmem : ∀ x ∈ (a0 :: arest).drop n, x ∈ a0 :: arest :=
      fun x hx => List.mem_of_mem_drop hx
    obtain ⟨bls2, hw2, hp2⟩ := @ih ((a0 :: arest).drop n) (tidx + 1) rest hrec
      (fun x hx => htrim x (hdropmem x hx))
      (fun x hx => hex x (hdropmem x hx))
      (fun x hx => hid x (hdropmem x hx))
    have htakemem : ∀ x ∈ (a0 :: arest).take n, x ∈ a0 :: arest :=
      fun x hx => List.mem_of_mem_take hx
    have htklen : ((a0 :: arest).take n).length = n := by
      rw [List.length_take]
      omega
    have hcoords := @parse_coords_of_written a0.symbol ((a0 :: arest).take n) (bls2 ++ rest)
      (fun x hx => by simpa using hsh x hx)
      (fun x hx => hex x (htakemem x hx))
      (fun x hx => hid x (htakemem x hx))
    rw [htklen] at hcoords
    refine ⟨a0.symbol :: ("Coordinates of Component " ++ natRepr (tidx + 1)) ::
      (((a0 :: arest).take n).map atomLine ++ bls2), ?_, ?_⟩
    · simp only [writeBlocks]
      rw [if_pos hlen, hw2]
      rfl
    · rw [parse_blocks]
      simp only [List.cons_append, popF, Bind.bind, Except.bind]
      rw [htrim a0 (List.mem_cons_self a0 arest)]
      rw [List.append_assoc, hcoords]
      simp only [Except.bind, hp2, pure, Except.pure]
      rw [List.take_append_drop]

theorem write_parse_roundtrip {f : ConFrame} {rest : List String}
    (hl1 : f.header.natms_per_type.length = f.header.natm_types)
    (hl2 : f.header.masses_per_type.length = f.header.natm_types)
    (hnt : f.header.natm_types < U64SIZE)
    (hnn : ∀ n ∈ f.header.natms_per_type, n < U64SIZE)
    (hx6 : Exact6Frame f)
    (hwf : WFBlocks f.header.natms_per_type f.atom_data)
    (htrim : ∀ a ∈ f.atom_data, strTrim a.symbol = a.symbol)
    (hid : ∀ a ∈ f.atom_data, a.atom_id < U64SIZE) :
    ∃ ls, write_frame f = some ls ∧ parse_single_frame (ls ++ rest) = .ok (f, rest) := by
  obtain ⟨hb1, hb2, hb3, ha1, ha2, ha3, hms, hax⟩ := hx6
  obtain ⟨bls, hw, hp⟩ :=
    @parse_blocks_of_written f.header.natms_per_type f.atom_data 0 rest hwf htrim hax hid
  refine ⟨headerLines f.header ++ bls, ?_, ?_⟩
  · rw [write_frame, hw]
    rfl
  · rw [List.append_assoc, parse_single_frame]
    simp only [Bind.bind, Except.bind,
      parse_frame_header_of_written f.header (bls ++ rest) hl1 hl2 hnt hnn
        ⟨hb1, hb2, hb3⟩ ⟨ha1, ha2, ha3⟩ hms,
      hp, pure, Except.pure]

/-! ## Inversion: what a successful parse guarantees -/

theorem popH_ok {ls : List String} {p : String × List String} (h : popH ls = .ok p) :
    ∃ x xs, ls = x :: xs ∧ p = (x, xs) := by
  cases ls with
  | nil => cases h
  | cons x xs =>
    refine ⟨x, xs, rfl, ?_⟩
    cases h
    rfl

theorem popF_ok {ls : List String} {p : String × List String} (h : popF ls = .ok p) :
    ∃ x xs, ls = x :: xs ∧ p = (x, xs) := by
  cases ls with
  | nil => cases h
  | cons x xs =>
    refine ⟨x, xs, rfl, ?_⟩
    cases h
    rfl

theorem mapM_ok_forall {α : Type} {tok : String → Except ParseError α} :
    ∀ {ts : List String} {vs : List α}, ts.mapM tok = .ok vs →
      List.Forall₂ (fun t v => tok t = .ok v) ts vs := by
  intro ts
  induction ts with
  | nil =>
    intro vs h
    rw [List.mapM_nil] at h
    cases h
    exact List.Forall₂.nil
  | cons t ts ih =>
    intro vs h
    rw [List.mapM_cons] at h
    simp only [Bind.bind] at h
    rcases except_bind_ok.mp h with ⟨v, hv, h2⟩
    rcases except_bind_ok.mp h2 with ⟨vs2, hvs2, h3⟩
    simp only [pure, Except.pure] at h3
    cases h3
    exact List.Forall₂.cons hv (ih hvs2)

theorem parse_line_of_n_ok {α : Type} {tok : String → Except ParseError α} {line : String}
    {n : Nat} {vs : List α} (h : parse_line_of_n tok line n = .ok vs) :
    (splitWs line).mapM tok = .ok vs ∧ vs.length = n := by
  rw [parse_line_of_n] at h
  simp only [Bind.bind] at h
  rcases except_bind_ok.mp h with ⟨ws, hws, hif⟩
  by_cases hl : ws.length = n
  · rw [if_pos hl] at hif
    simp only [pure, Except.pure] at hif
    cases hif
    exact ⟨hws, hl⟩
  · rw [if_neg hl] at hif
    cases hif

theorem parseNatTok_lt {s : String} {v : Nat} (h : parseNatTok s = .ok v) : v < U64SIZE := by
  rw [parseNatTok] at h
  cases hc : s.toList with
  | nil => rw [hc] at h; cases h
  | cons c r =>
    rw [hc] at h
    simp only at h
    by_cases h1 : ((if c = '+' then r else c :: r) ≠ [] &&
        (if c = '+' then r else c :: r).all fun c => c.isDigit) = true
    · rw [if_pos h1] at h
      by_cases h2 : digitsToNat (if c = '+' then r else c :: r) < U64SIZE
      · rw [if_pos h2] at h
        cases h
        exact h2
      · rw [if_neg h2] at h
        cases h
    · rw [if_neg h1] at h
      cases h

theorem f64_as_u64_lt (q : ℚ) : f64_as_u64 q < U64SIZE := by
  rw [f64_as_u64]
  by_cases h : q < 0
  · rw [if_pos h]
    rw [U64SIZE]
    omega
  · rw [if_neg h]
    have h2 : min (Int.toNat ⌊q⌋) (U64SIZE - 1) ≤ U64SIZE - 1 := min_le_right _ _
    rw [U64SIZE] at h2 ⊢
    omega

theorem dropLines_append {e : ParseError} {used rest : List String} :
    dropLines e used.length (used ++ rest) = .ok rest := by
  induction used with
  | nil => rfl
  | cons x xs ih =>
    rw [List.length_cons, List.cons_append, dropLines]
    exact ih

theorem dropLines_short {e : ParseError} : ∀ {k : Nat} {ls : List String},
    ls.length < k → dropLines e k ls = .error e := by
  intro k
  induction k with
  | zero =>
    intro ls h
    omega
  | succ k ih =>
    intro ls h
    cases ls with
    | nil => rfl
    | cons x xs =>
      rw [dropLines]
      exact ih (by simpa using h)

theorem forall2_mem_right {α β : Type} {R : α → β → Prop} :
    ∀ {ts : List α} {vs : List β}, List.Forall₂ R ts vs → ∀ v ∈ vs, ∃ t, R t v := by
  intro ts vs h
  induction h with
  | nil =>
    intro v hv
    simp at hv
  | cons hR _ ih =>
    intro v hv
    rcases List.mem_cons.mp hv with rfl | hv2
    · exact ⟨_, hR⟩
    · exact ih v hv2

theorem parse_natline_bounds {line : String} {n : Nat} {vs : List Nat}
    (h : parse_line_of_n parseNatTok line n = .ok vs) : ∀ v ∈ vs, v < U64SIZE :=
  fun v hv => by
    obtain ⟨t, ht⟩ := forall2_mem_right (mapM_ok_forall (parse_line_of_n_ok h).1) v hv
    exact parseNatTok_lt ht

theorem parse_frame_header_ok {ls : List String} {h : FrameHeader} {rest : List String}
    (hp : parse_frame_header ls = .ok (h, rest)) :
    h.natms_per_type.length = h.natm_types ∧
    h.masses_per_type.length = h.natm_types ∧
    h.natm_types < U64SIZE ∧
    (∀ n ∈ h.natms_per_type, n < U64SIZE) ∧
    ∃ l1 l2 l3 l4 l5 l6 l7 l8 l9,
      ls = l1 :: l2 :: l3 :: l4 :: l5 :: l6 :: l7 :: l8 :: l9 :: rest ∧
      parse_line_of_n parseNatTok l7 1 = .ok [h.natm_types] ∧
      parse_line_of_n parseNatTok l8 h.natm_types = .ok h.natms_per_type := by
  rw [parse_frame_header] at hp
  simp only [Bind.bind] at hp
  rcases except_bind_ok.mp hp with ⟨p1, hp1, hp⟩
  obtain ⟨l1, t1, rfl, rfl⟩ := popH_ok hp1
  rcases except_bind_ok.mp hp with ⟨p2, hp2, hp⟩
  obtain ⟨l2, t2, rfl, rfl⟩ := popH_ok hp2
  rcases except_bind_ok.mp hp with ⟨p3, hp3, hp⟩
  obtain ⟨l3, t3, rfl, rfl⟩ := popH_ok hp3
  rcases except_bind_ok.mp hp with ⟨bv, hbv, hp⟩
  rcases except_bind_ok.mp hp with ⟨p4, hp4, hp⟩
  obtain ⟨l4, t4, rfl, rfl⟩ := popH_ok hp4
  rcases except_bind_ok.mp hp with ⟨av, hav, hp⟩
  rcases except_bind_ok.mp hp with ⟨p5, hp5, hp⟩
  obtain ⟨l5, t5, rfl, rfl⟩ := popH_ok hp5
  rcases except_bind_ok.mp hp with ⟨p6, hp6, hp⟩
  obtain ⟨l6, t6, rfl, rfl⟩ := popH_ok hp6
  rcases except_bind_ok.mp hp with ⟨p7, hp7, hp⟩
  obtain ⟨l7, t7, rfl, rfl⟩ := popH_ok hp7
  rcases except_bind_ok.mp hp with ⟨ntv, hntv, hp⟩
  rcases except_bind_ok.mp hp with ⟨p8, hp8, hp⟩
  obtain ⟨l8, t8, rfl, rfl⟩ := popH_ok hp8
  rcases except_bind_ok.mp hp with ⟨natmsv, hnatmsv, hp⟩
  rcases except_bind_ok.mp hp with ⟨p9, hp9, hp⟩
  obtain ⟨l9, t9, rfl, rfl⟩ := popH_ok hp9
  rcases except_bind_ok.mp hp with ⟨massesv, hmassesv, hp⟩
  simp only [pure, Except.pure] at hp
  rw [Except.ok.injEq, Prod.mk.injEq] at hp
  obtain ⟨hh, hrest⟩ := hp
  obtain ⟨k, hk⟩ : ∃ k, ntv = [k] := by
    obtain ⟨_, hlen⟩ := parse_line_of_n_ok hntv
    cases ntv with
    | nil => simp at hlen
    | cons k t =>
      cases t with
      | nil => exact ⟨k, rfl⟩
      | cons _ _ => simp at hlen
  subst hk
  subst hrest
  subst hh
  simp only [List.headD] at hntv hnatmsv hmassesv ⊢
  have hlen1 : natmsv.length = k := (parse_line_of_n_ok hnatmsv).2
  have hlen2 : massesv.length = k := (parse_line_of_n_ok hmassesv).2
  refine ⟨hlen1, hlen2, ?_, ?_, l1, l2, l3, l4, l5, l6, l7, l8, l9, rfl, hntv, hnatmsv⟩
  · exact parse_natline_bounds hntv k (List.mem_cons_self k [])
  · exact parse_natline_bounds hnatmsv

theorem parse_coords_ok {sym : String} : ∀ {n : Nat} {ls : List String}
    {atoms : List AtomDatum} {rest : List String},
    parse_coords sym n ls = .ok (atoms, rest) →
    atoms.length = n ∧ (∃ used : List String, ls = used ++ rest ∧ used.length = n) ∧
    ∀ a ∈ atoms, a.symbol = sym ∧ a.atom_id < U64SIZE := by
  intro n
  induction n with
  | zero =>
    intro ls atoms rest h
    rw [parse_coords] at h
    rw [Except.ok.injEq, Prod.mk.injEq] at h
    obtain ⟨h1, h2⟩ := h
    subst h1
    subst h2
    exact ⟨rfl, ⟨[], rfl, rfl⟩, by simp⟩
  | succ n ih =>
    intro ls atoms rest h
    rw [parse_coords] at h
    simp only [Bind.bind] at h
    rcases except_bind_ok.mp h with ⟨p, hp, h⟩
    obtain ⟨x, xs, rfl, rfl⟩ := popF_ok hp
    rcases except_bind_ok.mp h with ⟨vals, hvals, h⟩
    rcases except_bind_ok.mp h with ⟨r, hr, h⟩
    simp only [pure, Except.pure] at h
    rw [Except.ok.injEq, Prod.mk.injEq] at h
    obtain ⟨h1, h2⟩ := h
    subst h1
    subst h2
    obtain ⟨hlen, ⟨used, hused, hulen⟩, hall⟩ := ih hr
    refine ⟨by simp [hlen], ⟨x :: used,
      by simp only [List.cons_append]; exact congrArg (List.cons x) (by simpa using hused),
      by simp [hulen]⟩, ?_⟩
    intro a ha
    rcases List.mem_cons.mp ha with rfl | ha2
    · exact ⟨rfl, f64_as_u64_lt _⟩
    · exact hall a ha2

theorem parse_blocks_ok : ∀ {ns : List Nat} {ls : List String}
    {atoms : List AtomDatum} {rest : List String},
    parse_blocks ns ls = .ok (atoms, rest) →
    atoms.length = ns.sum ∧
    (∃ used : List String, ls = used ++ rest ∧ used.length = ns.sum + 2 * ns.length) ∧
    (∀ a ∈ atoms, strTrim a.symbol = a.symbol ∧ a.atom_id < U64SIZE) ∧
    BlocksShape ns atoms := by
  intro ns
  induction ns with
  | nil =>
    intro ls atoms rest h
    rw [parse_blocks] at h
    rw [Except.ok.injEq, Prod.mk.injEq] at h
    obtain ⟨h1, h2⟩ := h
    subst h1
    subst h2
    exact ⟨rfl, ⟨[], rfl, rfl⟩, by simp, rfl⟩
  | cons n ns ih =>
    intro ls atoms rest h
    rw [parse_blocks] at h
    simp only [Bind.bind] at h
    rcases except_bind_ok.mp h with ⟨ps, hps, h⟩
    obtain ⟨x, xs, rfl, rfl⟩ := popF_ok hps
    rcases except_bind_ok.mp h with ⟨pm, hpm, h⟩
    obtain ⟨m, ms, rfl, rfl⟩ := popF_ok hpm
    rcases except_bind_ok.mp h with ⟨rc, hrc, h⟩
    rcases except_bind_ok.mp h with ⟨rb, hrb, h⟩
    simp only [pure, Except.pure] at h
    rw [Except.ok.injEq, Prod.mk.injEq] at h
    obtain ⟨h1, h2⟩ := h
    obtain ⟨catoms, crest⟩ := rc
    obtain ⟨batoms, brest⟩ := rb
    simp only at h1 h2 hrc hrb
    subst h1
    subst h2
    obtain ⟨hclen, ⟨cused, hcused, hculen⟩, hcall⟩ := parse_coords_ok hrc
    obtain ⟨hblen, ⟨bused, hbused, hbulen⟩, hball, hbshape⟩ := ih hrb
    have htake : (catoms ++ batoms).take n = catoms := by
      rw [← hclen]
      exact List.take_left catoms batoms
    have hdrop : (catoms ++ batoms).drop n = batoms := by
      rw [← hclen]
      exact List.drop_left catoms batoms
    refine ⟨by simp [hclen, hblen], ?_, ?_, ?_⟩
    · refine ⟨x :: m :: (cused ++ bused), ?_, ?_⟩
      · simp only [List.cons_append, List.append_assoc]
        rw [hcused, hbused]
      · simp only [List.length_cons, List.length_append, hculen, hbulen, List.sum_cons,
          List.length_cons]
        ring
    · intro a ha
      rcases List.mem_append.mp ha with h1 | h2
      · obtain ⟨hsym, hid⟩ := hcall a h1
        rw [hsym]
        exact ⟨strTrim_idem x, hid⟩
      · exact hball a h2
    · refine ⟨by simp [hclen], ?_, ?_⟩
      · intro a ha
        rw [htake] at ha
        rw [(hcall a ha).1]
        cases catoms with
        | nil => simp at ha
        | cons c0 cr =>
          simp only [List.cons_append, List.headD]
          rw [← (hcall c0 (List.mem_cons_self c0 cr)).1]
      · rw [hdrop]
        exact hbshape

theorem parse_single_frame_ok {ls : List String} {f : ConFrame} {rest : List String}
    (h : parse_single_frame ls = .ok (f, rest)) :
    ∃ mid, parse_frame_header ls = .ok (f.header, mid) ∧
      parse_blocks f.header.natms_per_type mid = .ok (f.atom_data, rest) := by
  rw [parse_single_frame] at h
  simp only [Bind.bind] at h
  rcases except_bind_ok.mp h with ⟨ph, hph, h⟩
  rcases except_bind_ok.mp h with ⟨pa, hpa, h⟩
  simp only [pure, Except.pure] at h
  obtain ⟨hdr, mid⟩ := ph
  obtain ⟨atoms, r2⟩ := pa
  rw [Except.ok.injEq, Prod.mk.injEq] at h
  obtain ⟨h1, h2⟩ := h
  subst h2
  rw [← h1]
  exact ⟨mid, hph, hpa⟩

/-- `forward()` agrees with a successful full decode: whenever
`parse_single_frame` accepts a frame, `forward` skips it, leaving the cursor
at exactly the same position. -/
theorem forward_of_parse_ok {ls : List String} {f : ConFrame} {rest : List String}
    (h : parse_single_frame ls = .ok (f, rest)) : forward ls = some (.ok rest) := by
  obtain ⟨mid, hph, hpb⟩ := parse_single_frame_ok h
  obtain ⟨hl1, _, _, _, l1, l2, l3, l4, l5, l6, l7, l8, l9, hls, hc7, hc8⟩ :=
    parse_frame_header_ok hph
  obtain ⟨_, ⟨used, hused, hulen⟩, _, _⟩ := parse_blocks_ok hpb
  subst hls
  subst hused
  have hfw : forward (l1 :: l2 :: l3 :: l4 :: l5 :: l6 :: l7 :: l8 :: l9 :: (used ++ rest)) =
      some (do
        let ls1 ← dropLines .IncompleteHeader 6
          (l1 :: l2 :: l3 :: l4 :: l5 :: l6 :: l7 :: l8 :: l9 :: (used ++ rest))
        let p7 ← popH ls1
        let ntv ← parse_line_of_n parseNatTok p7.1 1
        let natm_types := ntv.headD 0
        let p8 ← popH p7.2
        let natms_per_type ← parse_line_of_n parseNatTok p8.1 natm_types
        let ls2 ← dropLines .IncompleteHeader 1 p8.2
        let total_atoms := natms_per_type.sum
        let non_atom_lines := natm_types * 2
        let lines_to_skip := total_atoms + non_atom_lines
        dropLines .IncompleteFrame lines_to_skip ls2) := rfl
  rw [hfw]
  simp only [Bind.bind]
  have hd6 : dropLines ParseError.IncompleteHeader 6
      (l1 :: l2 :: l3 :: l4 :: l5 :: l6 :: l7 :: l8 :: l9 :: (used ++ rest)) =
      .ok (l7 :: l8 :: l9 :: (used ++ rest)) := rfl
  simp only [hd6, Except.bind, popH, hc7, hc8, List.headD]
  have hd1 : dropLines ParseError.IncompleteHeader 1 (l9 :: (used ++ rest)) =
      .ok (used ++ rest) := rfl
  simp only [hd1, Except.bind]
  have hskip : f.header.natms_per_type.sum + f.header.natm_types * 2 = used.length := by
    rw [hulen, ← hl1]
    ring
  rw [hskip, dropLines_append]

/-- A successfully parsed frame whose last per-type count is nonzero
satisfies the writer's block precondition. -/
theorem wfBlocks_of_shape : ∀ {ns : List Nat} {atoms : List AtomDatum},
    BlocksShape ns atoms → atoms.length = ns.sum →
    (ns = [] ∨ ns.getLast? ≠ some 0) → WFBlocks ns atoms := by
  intro ns
  induction ns with
  | nil =>
    intro atoms hs _ _
    exact hs
  | cons n ns ih =>
    intro atoms hs hlen hnz
    obtain ⟨hle, hsym, hrec⟩ := hs
    have hlast : (n :: ns).getLast? ≠ some 0 := by
      rcases hnz with h | h
      · cases h
      · exact h
    have hpos : 0 < (n :: ns).sum := by
      obtain ⟨last, hlast2⟩ : ∃ v, (n :: ns).getLast? = some v := by
        cases hg : (n :: ns).getLast? with
        | none => simp at hg
        | some v => exact ⟨v, rfl⟩
      have hmem : last ∈ n :: ns := by
        obtain ⟨hne, heq⟩ := List.mem_getLast?_eq_getLast (by rw [hlast2]; rfl :
          last ∈ (n :: ns).getLast?)
        rw [heq]
        exact List.getLast_mem hne
      have : last ≠ 0 := by
        intro h0
        rw [h0] at hlast2
        exact hlast hlast2
      have := List.single_le_sum (fun x _ => Nat.zero_le x) last hmem
      omega
    refine ⟨?_, hle, hsym, ?_⟩
    · intro h0
      rw [h0] at hlen
      simp only [List.length_nil] at hlen
      omega
    · apply ih hrec
      · rw [List.length_drop, hlen, List.sum_cons]
        omega
      · cases ns with
        | nil => exact Or.inl rfl
        | cons m ms =>
          refine Or.inr ?_
          rw [List.getLast?_cons_cons] at hlast
          exact hlast

theorem blocksShape_grouping : ∀ {ns : List Nat} {atoms : List AtomDatum},
    BlocksShape ns atoms →
    ∃ gs : List (List AtomDatum), atoms = gs.flatten ∧
      List.Forall₂ (fun n g => g.length = n ∧ ∀ a ∈ g, ∀ b ∈ g, a.symbol = b.symbol) ns gs := by
  intro ns
  induction ns with
  | nil =>
    intro atoms hs
    exact ⟨[], by rw [hs]; rfl, List.Forall₂.nil⟩
  | cons n ns ih =>
    intro atoms hs
    obtain ⟨hle, hsym, hrec⟩ := hs
    obtain ⟨gs, hfl, hall⟩ := ih hrec
    refine ⟨atoms.take n :: gs, ?_, List.Forall₂.cons ⟨?_, ?_⟩ hall⟩
    · rw [List.flatten_cons, ← hfl, List.take_append_drop]
    · rw [List.length_take]
      omega
    · intro a ha b hb
      rw [hsym a ha, hsym b hb]

/-- A frame the decoder produced round-trips through the writer, provided its
values are 6-digit exact and its last type block is nonempty. -/
theorem decoded_frame_roundtrip {ls0 : List String} {f : ConFrame} {rest0 rest : List String}
    (h : parse_single_frame ls0 = .ok (f, rest0)) (hx6 : Exact6Frame f)
    (hnz : LastTypeNonempty f) :
    ∃ ls, write_frame f = some ls ∧ parse_single_frame (ls ++ rest) = .ok (f, rest) := by
  obtain ⟨mid, hph, hpb⟩ := parse_single_frame_ok h
  obtain ⟨hl1, hl2, hnt, hnn, _⟩ := parse_frame_header_ok hph
  obtain ⟨hlen, _, htrimid, hshape⟩ := parse_blocks_ok hpb
  exact write_parse_roundtrip hl1 hl2 hnt hnn hx6
    (wfBlocks_of_shape hshape hlen hnz)
    (fun a ha => (htrimid a ha).1) (fun a ha => (htrimid a ha).2)

theorem decodesTo_roundtrip {ls0 : List String} {fs : List ConFrame} (h : DecodesTo ls0 fs)
    (hx6 : ∀ f ∈ fs, Exact6Frame f) (hnz : ∀ f ∈ fs, LastTypeNonempty f) :
    ∃ ls, write_frames fs = some ls ∧ DecodesTo ls fs := by
  induction h with
  | nil => exact ⟨[], rfl, DecodesTo.nil⟩
  | @cons ls f rest fs2 hp hrec ih =>
    obtain ⟨ls2, hw2, hd2⟩ := ih (fun x hx => hx6 x (List.mem_cons_of_mem f hx))
      (fun x hx => hnz x (List.mem_cons_of_mem f hx))
    obtain ⟨ls1, hw1, hp1⟩ := @decoded_frame_roundtrip ls f rest ls2 hp
      (hx6 f (List.mem_cons_self f fs2)) (hnz f (List.mem_cons_self f fs2))
    refine ⟨ls1 ++ ls2, ?_, DecodesTo.cons hp1 hd2⟩
    rw [write_frames]
    simp only [Bind.bind, hw1, hw2, Option.bind, pure]

theorem runMixed_decodes {ls0 : List String} {fs : List ConFrame} (h : DecodesTo ls0 fs) :
    ∀ {cs : List Bool}, cs.length = fs.length →
    runMixed cs ls0 = some (List.zipWith (fun c f => if c then none else some f) cs fs, []) := by
  induction h with
  | nil =>
    intro cs hcs
    rw [List.length_nil, List.length_eq_zero] at hcs
    subst hcs
    rfl
  | @cons ls f rest fs2 hp hrec ih =>
    intro cs hcs
    cases cs with
    | nil => simp at hcs
    | cons c cs2 =>
      have hne : ls ≠ [] := by
        intro h0
        rw [h0] at hp
        cases hp
      have hnext : nextStep ls = some (.ok (f, rest)) := by
        cases ls with
        | nil => exact absurd rfl hne
        | cons x xs =>
          rw [show nextStep (x :: xs) = some (parse_single_frame (x :: xs)) from rfl, hp]
      have hfwd : forward ls = some (.ok rest) := forward_of_parse_ok hp
      have ihres := @ih cs2 (by simpa using hcs)
      cases c with
      | true =>
        simp only [runMixed, hfwd]
        rw [ihres]
        rfl
      | false =>
        simp only [runMixed, hnext]
        rw [ihres]
        rfl

/-! ## Forward on corrupted headers -/

theorem forward_nine (l1 l2 l3 l4 l5 l6 l7 l8 l9 : String) (rest : List String) :
    forward (l1 :: l2 :: l3 :: l4 :: l5 :: l6 :: l7 :: l8 :: l9 :: rest) =
      some ((parse_line_of_n parseNatTok l7 1).bind (fun ntv =>
        (parse_line_of_n parseNatTok l8 (ntv.headD 0)).bind (fun natms =>
          dropLines .IncompleteFrame (natms.sum + ntv.headD 0 * 2) rest))) := rfl

theorem forwardVal_header_err {l1 l2 l3 l4 l5 l6 l7 l8 l9 : String} {rest : List String}
    {e : ParseError}
    (herr : parse_line_of_n parseNatTok l7 1 = .error e ∨
      (∃ k, parse_line_of_n parseNatTok l7 1 = .ok [k] ∧
        parse_line_of_n parseNatTok l8 k = .error e)) :
    forwardVal (l1 :: l2 :: l3 :: l4 :: l5 :: l6 :: l7 :: l8 :: l9 :: rest) =
      some (.error e) := by
  rw [forwardVal, forward_nine]
  rcases herr with h7 | ⟨k, h7, h8⟩
  · rw [h7]
    rfl
  · rw [h7]
    simp only [Except.bind, List.headD, h8]
    rfl

theorem nextVal_header_err {l1 l2 l3 l4 l5 l6 l7 l8 l9 : String} {rest : List String}
    {e : ParseError}
    (hbox : ∃ v, parse_line_of_n parseFloatTok l3 3 = .ok v)
    (hang : ∃ v, parse_line_of_n parseFloatTok l4 3 = .ok v)
    (herr : parse_line_of_n parseNatTok l7 1 = .error e ∨
      (∃ k, parse_line_of_n parseNatTok l7 1 = .ok [k] ∧
        parse_line_of_n parseNatTok l8 k = .error e)) :
    nextVal (l1 :: l2 :: l3 :: l4 :: l5 :: l6 :: l7 :: l8 :: l9 :: rest) =
      some (.error e) := by
  obtain ⟨bv, hbv⟩ := hbox
  obtain ⟨av, hav⟩ := hang
  rw [nextVal, show nextStep (l1 :: l2 :: l3 :: l4 :: l5 :: l6 :: l7 :: l8 :: l9 :: rest) =
    some (parse_single_frame (l1 :: l2 :: l3 :: l4 :: l5 :: l6 :: l7 :: l8 :: l9 :: rest))
    from rfl]
  rw [parse_single_frame]
  simp only [Bind.bind]
  rw [parse_frame_header]
  simp only [Bind.bind, popH, Except.bind, hbv, hav]
  rcases herr with h7 | ⟨k, h7, h8⟩
  · rw [h7]
    rfl
  · rw [h7]
    simp only [Except.bind, List.headD, h8]
    rfl

theorem forwardVal_incomplete {ls : List String} {h : FrameHeader} {rest : List String}
    (hp : parse_frame_header ls = .ok (h, rest))
    (hshort : rest.length < h.natms_per_type.sum + 2 * h.natm_types) :
    forwardVal ls = some (.error .IncompleteFrame) := by
  obtain ⟨_, _, _, _, l1, l2, l3, l4, l5, l6, l7, l8, l9, hls, hc7, hc8⟩ :=
    parse_frame_header_ok hp
  subst hls
  rw [forwardVal, forward_nine, hc7]
  simp only [Except.bind, List.headD]
  rw [hc8]
  simp only [Except.bind]
  rw [dropLines_short (by omega)]
  rfl

/-! ## Arity and error payloads of the line-value decoder -/

theorem mapM_ok_of_all_ok {α : Type} {tok : String → Except ParseError α} :
    ∀ {ts : List String}, (∀ t ∈ ts, ∃ v, tok t = .ok v) → ∃ vs, ts.mapM tok = .ok vs := by
  intro ts
  induction ts with
  | nil => exact fun _ => ⟨[], rfl⟩
  | cons t ts ih =>
    intro h
    obtain ⟨v, hv⟩ := h t (List.mem_cons_self t ts)
    obtain ⟨vs, hvs⟩ := ih (fun x hx => h x (List.mem_cons_of_mem t hx))
    refine ⟨v :: vs, ?_⟩
    rw [List.mapM_cons]
    simp only [Bind.bind, hv, Except.bind, hvs, pure, Except.pure]

theorem mapM_error_of_bad {α : Type} {tok : String → Except ParseError α} :
    ∀ {ts : List String}, (∃ t ∈ ts, ∀ v, tok t ≠ .ok v) →
      ∃ e, ts.mapM tok = .error e ∧ ∃ t, tok t = .error e := by
  intro ts
  induction ts with
  | nil =>
    intro h
    obtain ⟨t, ht, _⟩ := h
    simp at ht
  | cons t ts ih =>
    intro h
    cases hv : tok t with
    | error e =>
      refine ⟨e, ?_, t, hv⟩
      rw [List.mapM_cons]
      simp only [Bind.bind, hv, Except.bind]
    | ok v =>
      obtain ⟨t2, ht2, hbad⟩ := h
      have ht2tail : t2 ∈ ts := by
        rcases List.mem_cons.mp ht2 with rfl | h2
        · exact absurd hv (hbad v)
        · exact h2
      obtain ⟨e, he, hwit⟩ := ih ⟨t2, ht2tail, hbad⟩
      refine ⟨e, ?_, hwit⟩
      rw [List.mapM_cons]
      simp only [Bind.bind, hv, Except.bind, he]

theorem float_mapM_error : ∀ {ts : List String},
    (∃ t ∈ ts, floatVal? t.toList = none) →
    ts.mapM parseFloatTok = .error (.InvalidNumberFormat "invalid float literal") := by
  intro ts
  induction ts with
  | nil =>
    intro h
    obtain ⟨t, ht, _⟩ := h
    simp at ht
  | cons t ts ih =>
    intro h
    cases hv : floatVal? t.toList with
    | none =>
      rw [List.mapM_cons]
      simp only [Bind.bind, show parseFloatTok t = .error
        (.InvalidNumberFormat "invalid float literal") from by rw [parseFloatTok, hv],
        Except.bind]
    | some q =>
      obtain ⟨t2, ht2, hbad⟩ := h
      have ht2tail : t2 ∈ ts := by
        rcases List.mem_cons.mp ht2 with rfl | h2
        · rw [hv] at hbad
          cases hbad
        · exact h2
      rw [List.mapM_cons]
      simp only [Bind.bind, show parseFloatTok t = .ok q from by rw [parseFloatTok, hv],
        Except.bind, ih ⟨t2, ht2tail, hbad⟩]

/-! ## First-seen dedup under an injective lookup -/

theorem firstSeenAux_map {α β : Type} [DecidableEq α] [DecidableEq β] {f : α → β} :
    ∀ {l seen : List α},
    (∀ x ∈ l ++ seen, ∀ y ∈ l ++ seen, f x = f y → x = y) →
    (firstSeenAux l seen).map f = firstSeenAux (l.map f) (seen.map f) := by
  intro l
  induction l with
  | nil => intro seen _; rfl
  | cons a l ih =>
    intro seen hinj
    have hiff : (a ∈ seen) ↔ (f a ∈ seen.map f) := by
      constructor
      · exact fun h => List.mem_map_of_mem f h
      · intro h
        obtain ⟨b, hb, hfb⟩ := List.mem_map.mp h
        have : b = a := hinj b (by simp [hb]) a (by simp) hfb
        rw [← this]
        exact hb
    by_cases hmem : a ∈ seen
    · simp only [firstSeenAux, if_pos hmem, List.map_cons, if_pos (hiff.mp hmem)]
      exact ih (fun x hx y hy => hinj x (by
          rcases List.mem_append.mp hx with h1 | h2
          · simp [h1]
          · simp [h2])
        y (by
          rcases List.mem_append.mp hy with h1 | h2
          · simp [h1]
          · simp [h2]))
    · simp only [firstSeenAux, if_neg hmem, List.map_cons,
        if_neg (fun hc => hmem (hiff.mpr hc))]
      rw [ih (fun x hx y hy => hinj x (by
          rcases List.mem_append.mp hx with h1 | h2
          · simp [h1]
          · rcases List.mem_cons.mp h2 with rfl | h3
            · simp
            · simp [h3])
        y (by
          rcases List.mem_append.mp hy with h1 | h2
          · simp [h1]
          · rcases List.mem_cons.mp h2 with rfl | h3
            · simp
            · simp [h3]))]
      rfl

theorem firstSeen_map {α β : Type} [DecidableEq α] [DecidableEq β] {f : α → β} {l : List α}
    (hinj : ∀ x ∈ l, ∀ y ∈ l, f x = f y → x = y) :
    (firstSeen l).map f = firstSeen (l.map f) := by
  rw [firstSeen, firstSeen, firstSeenAux_map (by simpa using hinj)]
  rfl

/-! ## Bulk write validation -/

theorem convert_some_isSome (numToSym : Nat → String) (cf : CFrame) :
    ∃ g, convert_c_frame_to_con_frame numToSym (some cf) = some g := by
  rw [convert_c_frame_to_con_frame]
  exact ⟨_, rfl⟩

theorem filterMap_convert_short {numToSym : Nat → String} :
    ∀ {l : List (Option CFrame)}, none ∈ l →
    (l.filterMap (fun p => convert_c_frame_to_con_frame numToSym p)).length < l.length := by
  intro l
  induction l with
  | nil =>
    intro h
    simp at h
  | cons a l ih =>
    intro h
    cases a with
    | none =>
      have hred : (none :: l).filterMap
          (fun p => convert_c_frame_to_con_frame numToSym p) =
          l.filterMap (fun p => convert_c_frame_to_con_frame numToSym p) := rfl
      rw [hred]
      have := List.length_filterMap_le (fun p => convert_c_frame_to_con_frame numToSym p) l
      simp only [List.length_cons]
      omega
    | some cf =>
      have htail : none ∈ l := by
        rcases List.mem_cons.mp h with h1 | h2
        · cases h1
        · exact h2
      obtain ⟨g, hg⟩ := convert_some_isSome numToSym cf
      rw [List.filterMap_cons]
      simp only [hg, List.length_cons]
      exact Nat.succ_lt_succ (ih htail)

/-! ## Claim theorems -/

/-- C1 (counterexample): the round-trip law fails as stated for the
decoder-produced frame whose single type has zero atoms — the decoder accepts
`cexC1Lines` (a well-formed input) and yields `cexC1Frame`, but
`ConFrameWriter::write_frame` indexes `atom_data[atom_idx_offset]` out of
bounds on it, so serialization does not produce any text at all. -/
theorem roundtrip_law_cex :
    parse_single_frame cexC1Lines = .ok (cexC1Frame, []) ∧
    write_frame cexC1Frame = none := by
  constructor
  · decide
  · decide

/-- C1 (amended): for every sequence of frames produced by the decoder from
well-formed input (`DecodesTo`), if every real value of every frame is exactly
representable at the 6-fractional-digit precision the format preserves, and
every frame's last per-type atom count is nonzero (without this
`write_frame` indexes past the end of `atom_data`), then serializing each
frame with `ConFrameWriter::write_frame` in sequence succeeds and decoding
the resulting lines yields exactly the original frames, field for field. -/
theorem roundtrip_law (ls0 : List String) (fs : List ConFrame)
    (hdec : DecodesTo ls0 fs) (hx6 : ∀ f ∈ fs, Exact6Frame f)
    (hnz : ∀ f ∈ fs, LastTypeNonempty f) :
    ∃ ls, write_frames fs = some ls ∧ DecodesTo ls fs :=
  decodesTo_roundtrip hdec hx6 hnz

/-- C1 (witness): the round-trip law at a concrete decoder-produced frame. -/
theorem roundtrip_law_witness :
    ∃ ls, write_frames [witFrame] = some ls ∧ DecodesTo ls [witFrame] :=
  roundtrip_law witLines [witFrame]
    (DecodesTo.cons (by decide) DecodesTo.nil)
    (by
      intro f hf
      rw [List.mem_singleton] at hf
      subst hf
      decide)
    (by
      intro f hf
      rw [List.mem_singleton] at hf
      subst hf
      decide)

/-- C2: skip equivalence — on a well-formed multi-frame input that decodes to
the frames `fs`, any interleaving of `forward()` (`true`) and `next()`
(`false`) calls of the right total count drives the shared cursor through the
frames in file order, one frame per call, with none skipped or duplicated:
each `next()` call yields exactly the frame at its position, and after as
many calls as frames the cursor is at end of stream, where both `next()` and
`forward()` return `None`. -/
theorem skip_equivalence (ls : List String) (fs : List ConFrame) (cs : List Bool)
    (hdec : DecodesTo ls fs) (hlen : cs.length = fs.length) :
    runMixed cs ls =
      some (List.zipWith (fun c f => if c then none else some f) cs fs, []) ∧
    nextVal ([] : List String) = none ∧ forward ([] : List String) = none :=
  ⟨runMixed_decodes hdec hlen, rfl, rfl⟩

/-- C2 (witness): skip equivalence on a concrete two-frame input, skipping
the first frame and fully decoding the second. -/
theorem skip_equivalence_witness :
    runMixed [true, false] (witLines ++ demoLines) =
      some (List.zipWith (fun c f => if c then none else some f) [true, false]
        [witFrame, demoFrame], []) ∧
    nextVal ([] : List String) = none ∧ forward ([] : List String) = none :=
  skip_equivalence (witLines ++ demoLines) [witFrame, demoFrame] [true, false]
    (@DecodesTo.cons (witLines ++ demoLines) witFrame demoLines [demoFrame] (by decide)
      (@DecodesTo.cons demoLines demoFrame [] [] (by decide) DecodesTo.nil))
    (by decide)

/-- C3 (counterexample): `forward()` does not fail identically to a full
parse on every corrupted header line — on `cexC3Lines`, whose mass line is
the unparseable token `bogus`, `next()` reports `InvalidNumberFormat` while
`forward()` (which consumes the mass line without parsing it) succeeds. -/
theorem forward_error_cex :
    forwardVal cexC3Lines = some (.ok ()) ∧
    nextVal cexC3Lines =
      some (.error (.InvalidNumberFormat "invalid float literal")) := by
  constructor
  · decide
  · decide

/-- C3 (amended): `forward()` fails identically to a full decode via `next()`
for corruption of the two header lines it actually parses — the type-count
line and the per-type-count line — provided the box and angle lines (which
`forward()` consumes blindly) parse; corruption of the box-length, angle or
mass lines is not detected by `forward()` (see the counterexample).
Additionally `forward()` fails with `IncompleteFrame` whenever the header
parses but fewer than `lines_to_skip = total_atoms + 2*N` lines remain. -/
theorem forward_error_equivalence :
    (∀ (l1 l2 l3 l4 l5 l6 l7 l8 l9 : String) (rest : List String) (e : ParseError),
      (∃ v, parse_line_of_n parseFloatTok l3 3 = .ok v) →
      (∃ v, parse_line_of_n parseFloatTok l4 3 = .ok v) →
      (parse_line_of_n parseNatTok l7 1 = .error e ∨
        (∃ k, parse_line_of_n parseNatTok l7 1 = .ok [k] ∧
          parse_line_of_n parseNatTok l8 k = .error e)) →
      forwardVal (l1 :: l2 :: l3 :: l4 :: l5 :: l6 :: l7 :: l8 :: l9 :: rest) =
          some (.error e) ∧
      nextVal (l1 :: l2 :: l3 :: l4 :: l5 :: l6 :: l7 :: l8 :: l9 :: rest) =
          some (.error e)) ∧
    (∀ (ls : List String) (h : FrameHeader) (rest : List String),
      parse_frame_header ls = .ok (h, rest) →
      rest.length < h.natms_per_type.sum + 2 * h.natm_types →
      forwardVal ls = some (.error .IncompleteFrame)) := by
  constructor
  · intro l1 l2 l3 l4 l5 l6 l7 l8 l9 rest e hbox hang herr
    exact ⟨forwardVal_header_err herr, nextVal_header_err hbox hang herr⟩
  · intro ls h rest hp hshort
    exact forwardVal_incomplete hp hshort

/-- C3 (witness): on a header whose type-count line is the unparseable token
`x` (and whose box and angle lines are fine), `forward()` and `next()` return
the same `InvalidNumberFormat` error. -/
theorem forward_error_equivalence_witness :
    forwardVal ["A", "B", "0 0 0", "0 0 0", "C", "D", "x", "1", "1.0"] =
        some (.error (.InvalidNumberFormat "invalid digit found in string")) ∧
    nextVal ["A", "B", "0 0 0", "0 0 0", "C", "D", "x", "1", "1.0"] =
        some (.error (.InvalidNumberFormat "invalid digit found in string")) :=
  forward_error_equivalence.1 "A" "B" "0 0 0" "0 0 0" "C" "D" "x" "1" "1.0" [] _
    ⟨[0, 0, 0], by decide⟩ ⟨[0, 0, 0], by decide⟩ (Or.inl (by decide))

theorem forall2_mem_left {α β : Type} {R : α → β → Prop} :
    ∀ {ts : List α} {vs : List β}, List.Forall₂ R ts vs → ∀ t ∈ ts, ∃ v, R t v := by
  intro ts vs h
  induction h with
  | nil =>
    intro t ht
    simp at ht
  | cons hR _ ih =>
    intro t ht
    rcases List.mem_cons.mp ht with rfl | ht2
    · exact ⟨_, hR⟩
    · exact ih t ht2

theorem parseFloatTok_error_form : ∀ (s : String) (e : ParseError),
    parseFloatTok s = .error e → ∃ m, e = ParseError.InvalidNumberFormat m := by
  intro s e h
  rw [parseFloatTok] at h
  cases hv : floatVal? s.toList with
  | some q =>
    rw [hv] at h
    cases h
  | none =>
    rw [hv] at h
    cases h
    exact ⟨"invalid float literal", rfl⟩

/-- C4: arity invariant of `parse_line_of_n` — for any token parser whose
errors are all `InvalidNumberFormat` (as the numeric `FromStr` instances
are): (1) it returns a value iff the line has exactly `n`
whitespace-separated tokens that all parse; (2) the returned value is the
parsed tokens in order (never a partial vector); (3) if all tokens parse but
the count differs, the error is exactly
`InvalidVectorLength (expected := n) (found := count)`; (4) if some token
fails to parse, the error is `InvalidNumberFormat` — the parse-failure check
happens before the arity check, so the two errors are mutually exclusive. -/
theorem parse_line_arity {α : Type} (tok : String → Except ParseError α)
    (htok : ∀ s e, tok s = .error e → ∃ m, e = ParseError.InvalidNumberFormat m)
    (line : String) (n : Nat) :
    ((∃ vs, parse_line_of_n tok line n = .ok vs) ↔
      ((splitWs line).length = n ∧ ∀ t ∈ splitWs line, ∃ v, tok t = .ok v)) ∧
    (∀ vs, parse_line_of_n tok line n = .ok vs →
      List.Forall₂ (fun t v => tok t = .ok v) (splitWs line) vs) ∧
    ((∀ t ∈ splitWs line, ∃ v, tok t = .ok v) → (splitWs line).length ≠ n →
      parse_line_of_n tok line n =
        .error (.InvalidVectorLength n (splitWs line).length)) ∧
    ((∃ t ∈ splitWs line, ∀ v, tok t ≠ .ok v) →
      ∃ m, parse_line_of_n tok line n = .error (.InvalidNumberFormat m)) := by
  refine ⟨⟨?_, ?_⟩, ?_, ?_, ?_⟩
  · rintro ⟨vs, hvs⟩
    obtain ⟨hm, hlen⟩ := parse_line_of_n_ok hvs
    have hf := mapM_ok_forall hm
    exact ⟨by rw [List.Forall₂.length_eq hf, hlen],
      fun t ht => (forall2_mem_left hf t ht).imp (fun v hv => hv)⟩
  · rintro ⟨hlen, hall⟩
    obtain ⟨vs, hvs⟩ := mapM_ok_of_all_ok hall
    refine ⟨vs, ?_⟩
    rw [parse_line_of_n]
    simp only [Bind.bind, hvs, Except.bind]
    rw [if_pos (by rw [← List.Forall₂.length_eq (mapM_ok_forall hvs), hlen])]
    rfl
  · intro vs hvs
    exact mapM_ok_forall (parse_line_of_n_ok hvs).1
  · intro hall hlen
    obtain ⟨vs, hvs⟩ := mapM_ok_of_all_ok hall
    have hvlen : vs.length = (splitWs line).length :=
      (List.Forall₂.length_eq (mapM_ok_forall hvs)).symm
    rw [parse_line_of_n]
    simp only [Bind.bind, hvs, Except.bind]
    rw [if_neg (by rw [hvlen]; exact hlen), hvlen]
  · intro hbad
    obtain ⟨e, he, t, hwit⟩ := mapM_error_of_bad hbad
    obtain ⟨m, hm⟩ := htok t e hwit
    refine ⟨m, ?_⟩
    rw [parse_line_of_n]
    simp only [Bind.bind, he, Except.bind]
    rw [← hm]

/-- C4 (witness): the arity invariant instantiated at the real `f64` token
parser on a concrete line. -/
theorem parse_line_arity_witness :
    ((∃ vs, parse_line_of_n parseFloatTok "10.5 20" 3 = .ok vs) ↔
      ((splitWs "10.5 20").length = 3 ∧
        ∀ t ∈ splitWs "10.5 20", ∃ v, parseFloatTok t = .ok v)) ∧
    (∀ vs, parse_line_of_n parseFloatTok "10.5 20" 3 = .ok vs →
      List.Forall₂ (fun t v => parseFloatTok t = .ok v) (splitWs "10.5 20") vs) ∧
    ((∀ t ∈ splitWs "10.5 20", ∃ v, parseFloatTok t = .ok v) →
      (splitWs "10.5 20").length ≠ 3 →
      parse_line_of_n parseFloatTok "10.5 20" 3 =
        .error (.InvalidVectorLength 3 (splitWs "10.5 20").length)) ∧
    ((∃ t ∈ splitWs "10.5 20", ∀ v, parseFloatTok t ≠ .ok v) →
      ∃ m, parse_line_of_n parseFloatTok "10.5 20" 3 =
        .error (.InvalidNumberFormat m)) :=
  parse_line_arity parseFloatTok parseFloatTok_error_form "10.5 20" 3

/-- C5: grouping invariant — every frame returned by `parse_single_frame`
satisfies `sum(natms_per_type) = atom_data.length`, and its atom records are
contiguous by type in header order: the atom list splits into consecutive
groups, one per type, the i-th of length `natms_per_type[i]`, all of whose
records carry the same type label. -/
theorem grouping_invariant (ls : List String) (f : ConFrame) (rest : List String)
    (h : parse_single_frame ls = .ok (f, rest)) :
    f.header.natms_per_type.sum = f.atom_data.length ∧
    ∃ gs : List (List AtomDatum), f.atom_data = gs.flatten ∧
      List.Forall₂ (fun n g => g.length = n ∧ ∀ a ∈ g, ∀ b ∈ g, a.symbol = b.symbol)
        f.header.natms_per_type gs := by
  obtain ⟨mid, _, hpb⟩ := parse_single_frame_ok h
  obtain ⟨hlen, _, _, hshape⟩ := parse_blocks_ok hpb
  exact ⟨hlen.symm, blocksShape_grouping hshape⟩

/-- C5 (witness): the grouping invariant on a concrete two-type frame. -/
theorem grouping_invariant_witness :
    demoFrame.header.natms_per_type.sum = demoFrame.atom_data.length ∧
    ∃ gs : List (List AtomDatum), demoFrame.atom_data = gs.flatten ∧
      List.Forall₂ (fun n g => g.length = n ∧ ∀ a ∈ g, ∀ b ∈ g, a.symbol = b.symbol)
        demoFrame.header.natms_per_type gs :=
  grouping_invariant demoLines demoFrame [] (by decide)

set_option maxRecDepth 8000 in
/-- C6: the claim that every `CFrame`-producing path fails cleanly on more
than `MAX_ATOM_TYPES` types is right about `convert_con_frame_to_c_frame`
but wrong about `read_single_frame`: on a 65-type input the conversion helper
returns null, while `read_single_frame` — which never performs the bounded
conversion and leaves the fixed per-type arrays zeroed — returns a non-null
`CFrame` with `natm_types = 65` instead of failing.  This also contradicts
`CFrame`'s own comment that header data is stored losslessly. -/
theorem read_single_frame_overflow :
    (readSingleFrameLines symToNumDemo cex65Lines).map (fun cf => cf.natm_types) =
      some 65 ∧
    MAX_ATOM_TYPES < 65 ∧
    (parse_single_frame cex65Lines).map
      (fun p => convert_con_frame_to_c_frame symToNumDemo p.1) = .ok none := by
  refine ⟨?_, by decide, ?_⟩
  · decide
  · decide

/-- C7: bulk write is all-or-nothing per call — if any element of the
frame-pointer array passed to `write_con_file_from_c` is null, the whole call
fails (returns -1) and no output file is created or written. -/
theorem bulk_write_all_or_nothing (numToSym : Nat → String)
    (frames : List (Option CFrame)) (h : none ∈ frames) :
    write_con_file_from_c numToSym frames = none := by
  rw [show write_con_file_from_c numToSym frames =
    (if (frames.filterMap fun p => convert_c_frame_to_con_frame numToSym p).length =
        frames.length
     then write_con_file
       (frames.filterMap fun p => convert_c_frame_to_con_frame numToSym p)
     else none) from rfl]
  rw [if_neg (Nat.ne_of_lt (filterMap_convert_short h))]

/-- C7 (witness): a batch containing one valid frame and one null pointer
fails as a whole. -/
theorem bulk_write_all_or_nothing_witness :
    write_con_file_from_c numToSymDemo [some demoCFrame, none] = none :=
  bulk_write_all_or_nothing numToSymDemo [some demoCFrame, none] (by decide)

/-- C8: converting a fixed-layout `CFrame` back into an owned `ConFrame`
reconstructs type grouping — whenever the label lookup is injective on the
atomic numbers occurring in the frame, the resulting `atom_data` lists, for
each distinct label in order of first appearance in the input array, all
input atoms bearing that label in their original relative order (the
specification-side `regroupSpec`). -/
theorem regroup_reconstructs_grouping (numToSym : Nat → String) (cf : CFrame)
    (hinj : ∀ a ∈ cf.atoms, ∀ b ∈ cf.atoms,
      numToSym a.atomic_number = numToSym b.atomic_number →
      a.atomic_number = b.atomic_number) :
    ∃ g, convert_c_frame_to_con_frame numToSym (some cf) = some g ∧
      g.atom_data = regroupSpec numToSym cf.atoms := by
  refine ⟨_, rfl, ?_⟩
  show (((firstSeen (cf.atoms.map (fun a => a.atomic_number))).map numToSym).map
      (fun sym => (cf.atoms.filter
        (fun a => numToSym a.atomic_number = sym)).map (toDatum sym))).flatten =
    regroupSpec numToSym cf.atoms
  have hkey := firstSeen_map (f := numToSym)
    (l := cf.atoms.map (fun a => a.atomic_number))
    (by
      intro x hx y hy hf
      obtain ⟨a, ha, rfl⟩ := List.mem_map.mp hx
      obtain ⟨b, hb, rfl⟩ := List.mem_map.mp hy
      exact hinj a ha b hb hf)
  rw [hkey, regroupSpec, List.map_map]
  rfl

/-- C8 (witness): regrouping a concrete interleaved atom array. -/
theorem regroup_reconstructs_grouping_witness :
    ∃ g, convert_c_frame_to_con_frame numToSymDemo (some demoCFrame) = some g ∧
      g.atom_data = regroupSpec numToSymDemo demoCFrame.atoms :=
  regroup_reconstructs_grouping numToSymDemo demoCFrame (by decide)

/-- C9 (counterexample): the payload of `InvalidNumberFormat` is not the
offending token text — parsing the token `abc` as a real yields the standard
error description `invalid float literal`, not `abc`. -/
theorem invalid_number_payload_cex :
    parse_line_of_n parseFloatTok "abc" 1 =
      .error (.InvalidNumberFormat "invalid float literal") ∧
    ("invalid float literal" : String) ≠ "abc" := by
  constructor
  · decide
  · decide

/-- C9 (amended): whenever any token on a real-valued line fails to parse,
the Line-Value Decoder fails with `InvalidNumberFormat` carrying the display
string of the standard library's parse error (`invalid float literal` for
reals) — `error.rs` stores `e.to_string()`, not the offending token text. -/
theorem invalid_number_payload (line : String) (n : Nat)
    (h : ∃ t ∈ splitWs line, floatVal? t.toList = none) :
    parse_line_of_n parseFloatTok line n =
      .error (.InvalidNumberFormat "invalid float literal") := by
  rw [parse_line_of_n]
  simp only [Bind.bind, float_mapM_error h, Except.bind]

/-- C9 (witness): the amended payload behavior at a concrete line. -/
theorem invalid_number_payload_witness :
    parse_line_of_n parseFloatTok "1.0 abc -3.0" 3 =
      .error (.InvalidNumberFormat "invalid float literal") :=
  invalid_number_payload "1.0 abc -3.0" 3 ⟨"abc", by decide, by decide⟩

/-- C10: the atom identifier is obtained by parsing the fifth coordinate
token as a real and converting it with Rust's saturating `as u64` cast —
truncation toward zero, negative values to 0, values at or above `2^64` to
`u64::MAX` — so fractional or negative identifier tokens are accepted and
converted silently rather than rejected: `f64_as_u64` equals the
specification-side `u64SatTruncSpec` everywhere, and any coordinate line
whose 5 tokens parse as reals yields an atom with exactly that identifier. -/
theorem atom_id_saturating_cast :
    (∀ q : ℚ, f64_as_u64 q = u64SatTruncSpec q) ∧
    (∀ (sym line : String) (rest : List String) (a b c d e : ℚ),
      parse_line_of_n parseFloatTok line 5 = .ok [a, b, c, d, e] →
      parse_coords sym 1 (line :: rest) =
        .ok ([{ symbol := sym, x := a, y := b, z := c, is_fixed := decide (d ≠ 0),
                atom_id := f64_as_u64 e }], rest)) := by
  constructor
  · intro q
    rw [f64_as_u64, u64SatTruncSpec]
    by_cases hneg : q < 0
    · rw [if_pos hneg, if_pos hneg]
    · rw [if_neg hneg, if_neg hneg]
      by_cases hbig : (U64SIZE : ℚ) ≤ q
      · rw [if_pos hbig]
        have hfl : (U64SIZE : ℤ) ≤ ⌊q⌋ := Int.le_floor.mpr (by exact_mod_cast hbig)
        have h2 : U64SIZE ≤ Int.toNat ⌊q⌋ := by
          simp only [U64SIZE] at hfl ⊢
          omega
        exact min_eq_right (by simp only [U64SIZE] at h2 ⊢; omega)
      · rw [if_neg hbig]
        have hfl : ⌊q⌋ < (U64SIZE : ℤ) := by
          rw [Int.floor_lt]
          push_neg at hbig
          exact_mod_cast hbig
        have htn : Int.toNat ⌊q⌋ < U64SIZE := by
          simp only [U64SIZE] at hfl ⊢
          omega
        exact min_eq_left (by simp only [U64SIZE] at htn ⊢; omega)
  · intro sym line rest a b c d e hline
    rw [parse_coords]
    simp only [Bind.bind, popF, Except.bind, hline, parse_coords, pure, Except.pure]
    rfl

/-- C10 (witness): a negative fractional identifier token is accepted and
saturates to 0. -/
theorem atom_id_saturating_cast_witness :
    parse_coords "H" 1 ["0 0 0 0 -3.5"] =
      .ok ([{ symbol := "H", x := 0, y := 0, z := 0, is_fixed := decide ((0 : ℚ) ≠ 0),
              atom_id := f64_as_u64 (-7/2) }], []) ∧
    f64_as_u64 (-7/2) = u64SatTruncSpec (-7/2) :=
  ⟨atom_id_saturating_cast.2 "H" "0 0 0 0 -3.5" [] 0 0 0 0 (-7/2) (by decide),
   atom_id_saturating_cast.1 (-7/2)⟩

end ReadCon
